import Mathlib

/-!
The allocators library: the bump allocator, the allocation facade, the guard
heap and the copy primitives.

A shallow embedding of `BumpAllocator.h` and of `allocators.cpp`. The entry
points `unsafeutility_malloc` and `unsafeutility_free` are embedded twice: as
the source builds them, with `GUARD_HEAP` not defined, and in the namespace
`GuardHeap` as they are with `GUARD_HEAP` defined.

Conventions of the embedding

* Addresses and `size_t` values are natural numbers below `2^64`; arithmetic on
  `size_t`, `intptr_t` and pointers wraps modulo `2^64` (`toU64`).
* `int` values are integers; an `int` operation wraps to 32 bits (`toI32`).
* `sizeof(intptr_t)` is `8`.
* The platform allocator is the environment.  `malloc` does not choose the
  address it returns: the address is an argument (`base`) of every operation
  that may call `malloc`, and the properties that need a well-behaved platform
  say so through `MallocOk`.  The platform's view of the heap is the list of
  blocks it has handed out and not yet got back (`live`) and the log of the
  pointers given to `free` (`freed`).
* Of the memory contents the arena reads machine words only (the link word at
  the start of every chunk): `word a` is the word stored at address `a`.  The
  guard heap and the copy primitives act on a memory of bytes, a function from
  addresses to byte values; 64-bit fields are stored low byte first.
* A loop that the source does not bound is run with fuel, the number of tests
  of its condition it is allowed, and gives `none` when the fuel runs out.
-/

namespace Allocators

/-! ## Machine arithmetic -/

/-- Value of an integer in a 64-bit unsigned type (`size_t`, a pointer, or the
bit pattern of an `intptr_t`). -/
def toU64 (x : Int) : Nat := (x % 18446744073709551616).toNat

/-- Value of an integer in the 32-bit two's complement type `int`. -/
def toI32 (x : Int) : Int := (x + 2147483648) % 4294967296 - 2147483648

/-- Bitwise complement of a 64-bit pattern (`~x`). -/
def notU64 (x : Nat) : Nat := 18446744073709551615 - x % 18446744073709551616

/-! ## State -/

/-- The fields of `class BumpAllocator`. A null pointer is `0`. -/
structure BumpAllocator where
  mChunkSize : Nat
  mChunkLeft : Nat
  mCurChunk : Nat
  mCurPtr : Nat
deriving DecidableEq

/-- The arena together with the part of the process it acts on: the machine
words in memory and the platform allocator's bookkeeping. -/
structure World where
  arena : BumpAllocator
  word : Nat → Nat
  live : List (Nat × Nat)
  freed : List Nat

/-- The default argument of the constructor, which the process-wide arena
`sBumpAlloc` is built with. -/
def defaultChunkSize : Int := 16384

/-- The constructor `BumpAllocator(int chunkSize = 16384)`. -/
def BumpAllocator.new (chunkSize : Int) : BumpAllocator :=
  { mChunkSize := toU64 chunkSize, mChunkLeft := 0, mCurChunk := 0, mCurPtr := 0 }

/-- A process whose arena has just been constructed: memory contents `word`
are arbitrary, `live` are the blocks the platform has already handed out. -/
def World.fresh (chunkSize : Int) (word : Nat → Nat) (live : List (Nat × Nat)) : World :=
  { arena := BumpAllocator.new chunkSize, word := word, live := live, freed := [] }

/-! ## The platform allocator (environment) -/

/-- The call `malloc(sz)` answering `base`: the platform records the block. -/
def malloc (w : World) (sz base : Nat) : World :=
  { w with live := (base, sz) :: w.live }

/-- The call `free(p)`: the platform logs the call and takes the block back. -/
def free (w : World) (p : Nat) : World :=
  { w with live := w.live.filter (fun b => b.1 != p), freed := w.freed ++ [p] }

/-- The store `*(void**)a = v`. -/
def store (w : World) (a v : Nat) : World :=
  { w with word := fun x => if x = a then v else w.word x }

/-- Two byte ranges `[p, p+n)` and `[q, q+m)` do not intersect. -/
def RangesDisjoint (p n q m : Nat) : Prop := p + n ≤ q ∨ q + m ≤ p

instance (p n q m : Nat) : Decidable (RangesDisjoint p n q m) := by
  unfold RangesDisjoint; infer_instance

/-- What a successful `malloc(sz)` guarantees about the address it returns: it
is not null, the block lies inside the address space (so does the address one
past it), and it is disjoint from every block that is still allocated. -/
def MallocOk (w : World) (sz base : Nat) : Prop :=
  base ≠ 0 ∧ base + sz < 18446744073709551616 ∧
    ∀ b ∈ w.live, RangesDisjoint base sz b.1 b.2

instance (w : World) (sz base : Nat) : Decidable (MallocOk w sz base) := by
  unfold MallocOk; infer_instance

/-! ## BumpAllocator -/

/-- The size `newChunk(neededSize)` asks the platform for. -/
def chunkBytes (a : BumpAllocator) (neededSize : Int) : Nat :=
  let neededSize := toI32 (neededSize + 32)
  if toU64 neededSize < a.mChunkSize then a.mChunkSize else toU64 neededSize

/-- The method `BumpAllocator::newChunk(int neededSize)`; `base` is what `malloc`
returns. -/
def newChunk (w : World) (neededSize : Int) (base : Nat) : World :=
  let sz := chunkBytes w.arena neededSize
  let w1 := malloc w sz base
  let w2 := store w1 base w.arena.mCurChunk
  { w2 with arena :=
      { mChunkSize := w.arena.mChunkSize
        mCurChunk := base
        mCurPtr := toU64 ((base : Int) + 8)
        mChunkLeft := toU64 ((sz : Int) - 8) } }

/-- The `alignment` branch of `alloc`:
`(intptr_t(mCurPtr) + (v - 1)) & ~(v - 1)`, and `mCurPtr` when `alignment` is 0. -/
def alignPtr (cur : Nat) (alignment : Int) : Nat :=
  if alignment ≠ 0 then
    toU64 ((cur : Int) + (alignment - 1)) &&& notU64 (toU64 (alignment - 1))
  else cur

/-- The method `BumpAllocator::alloc(int size, int alignment)`: the returned pointer and
the state after the call. `base` is the platform's answer should the call
reach `malloc`. -/
def alloc (w : World) (size alignment : Int) (base : Nat) : Nat × World :=
  let w1 :=
    if w.arena.mChunkLeft < toU64 (toI32 (size + alignment)) then
      newChunk w (toI32 (size + alignment)) base
    else w
  let result := alignPtr w1.arena.mCurPtr alignment
  (result,
    { w1 with arena :=
        { w1.arena with
          mChunkLeft :=
            toU64 ((w1.arena.mChunkLeft : Int) - (((result : Int) - w1.arena.mCurPtr) + size))
          mCurPtr := toU64 ((result : Int) + size) } })

/-- The `while` loop of `reset`, run for at most `fuel` tests of its condition. -/
def resetLoop : Nat → World → Option World
  | 0, _ => none
  | fuel + 1, w =>
    if w.word w.arena.mCurChunk ≠ 0 then
      let chunk := w.arena.mCurChunk
      let w1 := { w with arena := { w.arena with mCurChunk := w.word w.arena.mCurChunk } }
      resetLoop fuel (free w1 chunk)
    else some w

/-- The method `BumpAllocator::reset()`; `none` when the loop is still running after
`fuel` tests. -/
def reset (fuel : Nat) (w : World) : Option World :=
  if w.arena.mCurChunk = 0 then some w
  else
    match resetLoop fuel w with
    | none => none
    | some w1 =>
      some { w1 with arena :=
        { w1.arena with
          mCurPtr := toU64 ((w1.arena.mCurChunk : Int) + 8)
          mChunkLeft := toU64 ((w1.arena.mChunkSize : Int) - 8) } }

/-! ## The facade (`allocators.cpp`, `GUARD_HEAP` not defined) -/

/-- The tags of `enum class Allocator`. -/
inductive Allocator
  | Invalid | None | Temp | TempJob | Persistent
deriving DecidableEq

/-- Numeric value of an `Allocator` tag. -/
def Allocator.toNat : Allocator → Nat
  | .Invalid => 0
  | .None => 1
  | .Temp => 2
  | .TempJob => 3
  | .Persistent => 4

/-- The entry point
`unsafeutility_malloc(int64_t size, int alignment, Allocator allocatorType)`
acting on the process-wide arena `sBumpAlloc`. -/
def unsafeutility_malloc (w : World) (size alignment : Int) (allocatorType : Allocator)
    (base : Nat) : Nat × World :=
  if allocatorType = Allocator.Temp then
    alloc w (toI32 size) alignment base
  else (base, malloc w (toU64 size) base)

/-- The entry point `unsafeutility_free(void* ptr, Allocator allocatorType)`. -/
def unsafeutility_free (w : World) (ptr : Nat) (allocatorType : Allocator) : World :=
  if ptr = 0 then w
  else if allocatorType = Allocator.Temp then w
  else free w ptr

/-- The entry point `unsafeutility_freetemp()`. -/
def unsafeutility_freetemp (fuel : Nat) (w : World) : Option World :=
  reset fuel w

/-! ## Sequences of calls on the arena -/

/-- A call on the arena; an `alloc` carries the platform's answer `base`. -/
inductive Op
  | alloc (size alignment : Int) (base : Nat)
  | reset
deriving DecidableEq

/-- The process observed through a sequence of calls: its state and the
regions `(pointer, size)` returned by `alloc` since the last `reset`, most
recent first. -/
structure Session where
  world : World
  issued : List (Nat × Nat)

/-- A session starting with a just-constructed arena. -/
def Session.fresh (chunkSize : Int) (word : Nat → Nat) (live : List (Nat × Nat)) : Session :=
  { world := World.fresh chunkSize word live, issued := [] }

/-- One call. The loop of `reset` is given more tests than the platform has
live blocks. -/
def Session.step (s : Session) : Op → Option Session
  | Op.alloc size alignment base =>
    let r := alloc s.world size alignment base
    some { world := r.2, issued := (r.1, size.toNat) :: s.issued }
  | Op.reset =>
    match reset (s.world.live.length + 1) s.world with
    | none => none
    | some w => some { world := w, issued := [] }

/-- A sequence of calls, first call first. -/
def Session.run : Session → List Op → Option Session
  | s, [] => some s
  | s, op :: ops =>
    match s.step op with
    | none => none
    | some s1 => s1.run ops

/-- An `alignment` argument the contract admits: 0 or a power of two (an `int`). -/
def AlignOk (alignment : Int) : Prop :=
  alignment = 0 ∨ ∃ k, k < 31 ∧ alignment = 2 ^ k

instance (alignment : Int) : Decidable (AlignOk alignment) := by
  unfold AlignOk; infer_instance

/-- The call `alloc(size, alignment)` in state `w` is one the contract admits
and the platform serves: `size` is a non-negative `int`, `alignment` is 0 or a
power of two, and if the call reaches `malloc` the answer `base` is that of a
successful `malloc`. -/
def AllocOk (w : World) (size alignment : Int) (base : Nat) : Prop :=
  0 ≤ size ∧ size < 2147483648 ∧ AlignOk alignment ∧
    (w.arena.mChunkLeft < toU64 (toI32 (size + alignment)) →
      MallocOk w (chunkBytes w.arena (toI32 (size + alignment))) base)

instance (w : World) (size alignment : Int) (base : Nat) :
    Decidable (AllocOk w size alignment base) := by
  unfold AllocOk; infer_instance

/-- Admissibility of one call. -/
def OpOk (w : World) : Op → Prop
  | Op.alloc size alignment base => AllocOk w size alignment base
  | Op.reset => True

instance (w : World) (op : Op) : Decidable (OpOk w op) := by
  cases op <;> unfold OpOk <;> infer_instance

/-- Every call of the sequence is admissible in the state it is made in. -/
def TraceOk : Session → List Op → Prop
  | _, [] => True
  | s, op :: ops =>
    OpOk s.world op ∧
      match s.step op with
      | none => False
      | some s1 => TraceOk s1 ops

instance decTraceOk : (s : Session) → (ops : List Op) → Decidable (TraceOk s ops)
  | _, [] => isTrue trivial
  | s, op :: ops =>
    match h : s.step op with
    | none => isFalse (by unfold TraceOk; rw [h]; exact fun x => x.2)
    | some s1 =>
      match decTraceOk s1 ops with
      | isTrue h1 =>
        if h2 : OpOk s.world op then isTrue (by unfold TraceOk; rw [h]; exact ⟨h2, h1⟩)
        else isFalse (by unfold TraceOk; exact fun x => h2 x.1)
      | isFalse h1 => isFalse (by unfold TraceOk; rw [h]; exact fun x => h1 x.2)

/-- The calls `alloc(size, alignment)` of a list of requests
`(size, alignment, base)`, in order. -/
def allocCalls (reqs : List (Int × Int × Nat)) : List Op :=
  reqs.map (fun r => Op.alloc r.1 r.2.1 r.2.2)

/-- The order of two issued regions, the later one first: the later region
starts at or after the end of the earlier one. -/
def After (later earlier : Nat × Nat) : Prop := earlier.1 + earlier.2 ≤ later.1

instance (later earlier : Nat × Nat) : Decidable (After later earlier) := by
  unfold After; infer_instance

/-! ## The chunk list and the arena invariant -/

/-- The chunk list as the code reads it: starting from `cur` and following the
link word of every chunk, the chunks met are `bs` (most recent first) and the
last link is null. -/
def Links (word : Nat → Nat) : Nat → List Nat → Prop
  | cur, [] => cur = 0
  | cur, b :: bs => cur = b ∧ b ≠ 0 ∧ Links word (word b) bs

instance decLinks (word : Nat → Nat) : (cur : Nat) → (bs : List Nat) →
    Decidable (Links word cur bs)
  | cur, [] => inferInstanceAs (Decidable (cur = 0))
  | cur, b :: bs =>
    have : Decidable (Links word (word b) bs) := decLinks word (word b) bs
    inferInstanceAs (Decidable (cur = b ∧ b ≠ 0 ∧ Links word (word b) bs))

/-- The invariant of the arena: `cs` lists its chunks, most recent first, each
with the size it was allocated with. -/
structure Inv (w : World) (cs : List (Nat × Nat)) : Prop where
  links : Links w.word w.arena.mCurChunk (cs.map Prod.fst)
  block : ∀ c ∈ cs, c ∈ w.live ∧ 8 ≤ c.2 ∧ c.1 + c.2 < 18446744073709551616
  apart : cs.Pairwise (fun c d => RangesDisjoint c.1 c.2 d.1 d.2)
  config : 8 ≤ w.arena.mChunkSize ∧ w.arena.mChunkSize < 18446744073709551616
  oldest : ∀ c, cs.getLast? = some c → w.arena.mChunkSize ≤ c.2
  cursor :
    match cs with
    | [] => w.arena.mChunkLeft = 0 ∧ w.arena.mCurPtr = 0
    | c :: _ =>
      c.1 + 8 ≤ w.arena.mCurPtr ∧ w.arena.mCurPtr + w.arena.mChunkLeft ≤ c.1 + c.2

/-- Where the regions handed out since the last `reset` lie: below the cursor
in the current chunk, or inside an older chunk of the list (a zero-sized
request made before any chunk exists gets the null pointer). -/
def IssuedIn (s : Session) (cs : List (Nat × Nat)) : Prop :=
  ∀ r ∈ s.issued,
    r = (0, 0) ∨
    (∃ c, cs.head? = some c ∧ c.1 + 8 ≤ r.1 ∧ r.1 + r.2 ≤ s.world.arena.mCurPtr) ∨
    (∃ d ∈ cs.tail, d.1 ≤ r.1 ∧ r.1 + r.2 ≤ d.1 + d.2)

/-- Releasing the pointers `ps` in order. -/
def releaseAll (w : World) (ps : List Nat) : World := ps.foldl free w

/-! ## Byte memory and the copy primitives of the facade -/

/-- The library call `memcpy(dst, src, n)` on a byte memory `m` (`m a` is the
byte at address `a`), for regions that do not overlap: the `n` bytes from
`dst` on become those that `m` holds from `src` on. -/
def memcpy (m : Nat → Nat) (dst src n : Nat) : Nat → Nat :=
  fun a => if dst ≤ a ∧ a < dst + n then m (src + (a - dst)) else m a

/-- The library call `memset(dst, v, n)` on a byte memory. -/
def memset (m : Nat → Nat) (dst v n : Nat) : Nat → Nat :=
  fun a => if dst ≤ a ∧ a < dst + n then v else m a

/-- The `for (int i = 0; i != count; i++)` loop of `unsafeutility_memcpystride`
from the state `i`, `destination`, `source`, run for at most `fuel` tests of
its condition. -/
def memcpystrideLoop (destinationStride sourceStride elementSize count : Int) :
    Nat → Int → Nat → Nat → (Nat → Nat) → Option (Nat → Nat)
  | 0, _, _, _, _ => none
  | fuel + 1, i, destination, source, m =>
    if i ≠ count then
      memcpystrideLoop destinationStride sourceStride elementSize count fuel (toI32 (i + 1))
        (toU64 ((destination : Int) + destinationStride))
        (toU64 ((source : Int) + sourceStride))
        (memcpy m destination source (toU64 elementSize))
    else some m

/-- The entry point `unsafeutility_memcpystride(destination_, destinationStride,
source_, sourceStride, elementSize, count)` on the byte memory `m`; `none` when
the loop is still running after `fuel` tests. -/
def unsafeutility_memcpystride (fuel : Nat) (m : Nat → Nat) (destination_ : Nat)
    (destinationStride : Int) (source_ : Nat) (sourceStride elementSize count : Int) :
    Option (Nat → Nat) :=
  if elementSize = destinationStride ∧ elementSize = sourceStride then
    some (memcpy m destination_ source_
      (toU64 count * toU64 elementSize % 18446744073709551616))
  else
    memcpystrideLoop destinationStride sourceStride elementSize count fuel 0
      destination_ source_ m

/-- The `for (int i = 0; i < count; ++i)` loop of `unsafeutility_memcpyreplicate`
from the state `i`, `dstbytes`, run for at most `fuel` tests of its condition. -/
def memcpyreplicateLoop (src : Nat) (size count : Int) :
    Nat → Int → Nat → (Nat → Nat) → Option (Nat → Nat)
  | 0, _, _, _ => none
  | fuel + 1, i, dstbytes, m =>
    if i < count then
      memcpyreplicateLoop src size count fuel (toI32 (i + 1))
        (toU64 ((dstbytes : Int) + size)) (memcpy m dstbytes src (toU64 size))
    else some m

/-- The entry point `unsafeutility_memcpyreplicate(dst, src, size, count)` on
the byte memory `m`; `none` when the loop is still running after `fuel` tests. -/
def unsafeutility_memcpyreplicate (fuel : Nat) (m : Nat → Nat) (dst src : Nat)
    (size count : Int) : Option (Nat → Nat) :=
  memcpyreplicateLoop src size count fuel 0 dst m

/-- The byte memory after the first `k` elements of a strided copy have been
copied, one `memcpy` each, in order. -/
def copyElems (m : Nat → Nat) (dst dstStride src srcStride elementSize : Nat) :
    Nat → (Nat → Nat)
  | 0 => m
  | k + 1 =>
    memcpy (copyElems m dst dstStride src srcStride elementSize k)
      (dst + k * dstStride) (src + k * srcStride) elementSize

/-- The byte memory after the first `k` copies of a replication have been
written, one `memcpy` each, in order. -/
def replElems (m : Nat → Nat) (dst src size : Nat) : Nat → (Nat → Nat)
  | 0 => m
  | k + 1 => memcpy (replElems m dst src size k) (dst + k * size) src size

/-! ## The guard heap (`allocators.cpp` built with `GUARD_HEAP` defined) -/

namespace GuardHeap

/-- The process as the guarded entry points act on it: the bytes in memory, the
platform allocator's bookkeeping, and the number of calls of `guardfail` so
far. -/
structure GuardWorld where
  byte : Nat → Nat
  live : List (Nat × Nat)
  freed : List Nat
  faults : Nat

/-- The macro `GUARD_EXTRAALIGN`. -/
def GUARD_EXTRAALIGN : Int := 64

/-- The value of `sizeof(GuardHeader)`: 64 bytes of `front`, the 64-byte union
of `pad` with `size` and `unalignedbase`, 64 bytes of `back`. -/
def sizeofGuardHeader : Int := 192

/-- Offset of `GuardHeader::front`. -/
def offFront : Nat := 0

/-- Offset of `GuardHeader::size`, the first member of the union. -/
def offSize : Nat := 64

/-- Offset of `GuardHeader::unalignedbase`, which follows the 8-byte `size`. -/
def offBase : Nat := 72

/-- Offset of `GuardHeader::pad`, the other member of the union. -/
def offPad : Nat := 64

/-- Offset of `GuardHeader::back`. -/
def offBack : Nat := 128

/-- A store of the 64-bit value `v` at address `a`, low byte first. -/
def store64 (m : Nat → Nat) (a v : Nat) : Nat → Nat :=
  fun x => if a ≤ x ∧ x < a + 8 then v / 256 ^ (x - a) % 256 else m x

/-- A load of the 64-bit value at address `a`, low byte first. -/
def load64 (m : Nat → Nat) (a : Nat) : Nat :=
  m a + 256 * m (a + 1) + 65536 * m (a + 2) + 16777216 * m (a + 3) +
    4294967296 * m (a + 4) + 1099511627776 * m (a + 5) +
    281474976710656 * m (a + 6) + 72057594037927936 * m (a + 7)

/-- The function `guardfail()`: the fault is reported (`__debugbreak()` or
`abort()`). The count is what the model keeps of it; the calls below go on as
the source is written after the call returns. -/
def guardfail (g : GuardWorld) : GuardWorld :=
  { g with faults := g.faults + 1 }

/-- The loop of `guardcheck` from index `i` with `n` indices to go. -/
def guardcheckFrom (g : GuardWorld) (p x : Nat) : Nat → Nat → GuardWorld
  | _, 0 => g
  | i, n + 1 => if g.byte (p + i) ≠ x then guardfail g else guardcheckFrom g p x (i + 1) n

/-- The function `guardcheck(p, x, s)`. -/
def guardcheck (g : GuardWorld) (p x s : Nat) : GuardWorld :=
  guardcheckFrom g p x 0 s

/-- The rounding of the platform's address in `unsafeutility_malloc`:
`(((intptr_t)runaligned) + GUARD_EXTRAALIGN - 1) & (~(GUARD_EXTRAALIGN-1))`. -/
def alignedHeader (runaligned : Nat) : Nat :=
  toU64 ((runaligned : Int) + GUARD_EXTRAALIGN - 1) &&& notU64 (toU64 (GUARD_EXTRAALIGN - 1))

/-- The number of bytes the guarded `unsafeutility_malloc` asks the platform
for: `(size_t)size + 2*sizeof(GuardHeader) + GUARD_EXTRAALIGN`. -/
def guardedBytes (size : Int) : Nat :=
  toU64 ((toU64 size : Int) + 2 * sizeofGuardHeader + GUARD_EXTRAALIGN)

/-- The writes that fill one `GuardHeader` at `h`: the three `memset` calls
with the fill bytes of `front`, `back` and `pad`, then the stores of
`unalignedbase` and `size`. -/
def writeHeader (m : Nat → Nat) (h front back pad runaligned : Nat) (size : Int) :
    Nat → Nat :=
  let m1 := memset m (h + offFront) front 64
  let m2 := memset m1 (h + offBack) back 64
  let m3 := memset m2 (h + offPad) pad 64
  let m4 := store64 m3 (h + offBase) runaligned
  store64 m4 (h + offSize) (toU64 size)

/-- The entry point `unsafeutility_malloc(size, alignment, allocatorType)` of
the guarded build: the user pointer and the state after the call; `base` is
what `malloc` returns. -/
def unsafeutility_malloc (g : GuardWorld) (size : Int) (_alignment : Int)
    (_allocatorType : Allocator) (base : Nat) : Nat × GuardWorld :=
  let sall := guardedBytes size
  let runaligned := base
  let m0 := memset g.byte runaligned 188 sall
  let r := alignedHeader runaligned
  let hstart := r
  let hend := toU64 ((r : Int) + sizeofGuardHeader + size)
  let m1 := writeHeader m0 hstart 241 242 243 runaligned size
  let m2 := writeHeader m1 hend 161 162 163 runaligned size
  (toU64 ((r : Int) + sizeofGuardHeader),
    { byte := m2, live := (base, sall) :: g.live, freed := g.freed, faults := g.faults })

/-- The platform call `free(p)` in the guarded build. -/
def free (g : GuardWorld) (p : Nat) : GuardWorld :=
  { g with live := g.live.filter (fun b => b.1 != p), freed := g.freed ++ [p] }

/-- The entry point `unsafeutility_free(ptr, allocatorType)` of the guarded
build. -/
def unsafeutility_free (g : GuardWorld) (ptr : Nat) (allocatorType : Allocator) :
    GuardWorld :=
  if ptr = 0 then g
  else if allocatorType = Allocator.Temp then g
  else
    let g1 := if ptr &&& toU64 (GUARD_EXTRAALIGN - 1) ≠ 0 then guardfail g else g
    let r := toU64 ((ptr : Int) - sizeofGuardHeader)
    let hstart := r
    let hend := toU64 ((r : Int) + sizeofGuardHeader + load64 g1.byte (hstart + offSize))
    if load64 g1.byte (hstart + offSize) ≠ load64 g1.byte (hend + offSize) ∨
        load64 g1.byte (hstart + offBase) ≠ load64 g1.byte (hend + offBase) then
      guardfail g1
    else
      let g2 := guardcheck g1 (hstart + offFront) 241 64
      let g3 := guardcheck g2 (hstart + offBack) 242 64
      let g4 := guardcheck g3 (hend + offFront) 161 64
      let g5 := guardcheck g4 (hend + offBack) 162 64
      free g5 (load64 g5.byte (hstart + offBase))

end GuardHeap

/-! ## The remaining count and the state `alloc` serves from -/

/-- The state in which `alloc` computes its result, after its first two lines:
the state with the new chunk if the call grows one, the state as it was
otherwise. -/
def afterGrowth (w : World) (size alignment : Int) (base : Nat) : World :=
  if w.arena.mChunkLeft < toU64 (toI32 (size + alignment)) then
    newChunk w (toI32 (size + alignment)) base
  else w

/-- How the remaining count stands to the cursor in the current chunk `c` (the
head of the chunk list `cs`): cursor + remaining is the end of the chunk as it
was allocated, or, if `reset` has been called (`rst`), possibly the end of its
first `mChunkSize` bytes only. -/
def Exact (rst : Prop) (w : World) (cs : List (Nat × Nat)) : Prop :=
  match cs with
  | [] => True
  | c :: _ =>
    w.arena.mCurPtr + w.arena.mChunkLeft = c.1 + c.2 ∨
      (rst ∧ w.arena.mCurPtr + w.arena.mChunkLeft = c.1 + w.arena.mChunkSize ∧
        w.arena.mChunkSize ≤ c.2)

/-! ## Machine arithmetic: lemmas -/

theorem toU64_lt (x : Int) : toU64 x < 18446744073709551616 := by
  unfold toU64; omega

theorem toU64_of_nat (n : Nat) (h : n < 18446744073709551616) : toU64 (n : Int) = n := by
  unfold toU64; omega

theorem toU64_toI32_ge (x : Int) (h0 : 0 ≤ x) (h1 : x < 4294967296) :
    x ≤ (toU64 (toI32 x) : Int) := by
  unfold toU64 toI32; omega

theorem toU64_toI32_small (x : Int) (h0 : 0 ≤ x) (h1 : x < 2147483648) :
    (toU64 (toI32 x) : Int) = x := by
  unfold toU64 toI32; omega

theorem chunkBytes_ge_config (a : BumpAllocator) (n : Int) : a.mChunkSize ≤ chunkBytes a n := by
  unfold chunkBytes
  simp only
  split <;> omega

theorem chunkBytes_lt (a : BumpAllocator) (n : Int) (h : a.mChunkSize < 18446744073709551616) :
    chunkBytes a n < 18446744073709551616 := by
  unfold chunkBytes
  simp only
  split
  · exact h
  · exact toU64_lt _

theorem chunkBytes_ge_need (a : BumpAllocator) (x : Int) (h0 : 0 ≤ x) (h1 : x < 4294967264) :
    x + 32 ≤ (chunkBytes a (toI32 x) : Int) := by
  have h : x + 32 ≤ (toU64 (toI32 (toI32 x + 32)) : Int) := by
    unfold toU64 toI32; omega
  unfold chunkBytes
  simp only
  split <;> omega

theorem chunkBytes_small (a : BumpAllocator) (x : Int) (h0 : 0 ≤ x) (h1 : x + 32 < 2147483648) :
    chunkBytes a (toI32 x) = max a.mChunkSize (x + 32).toNat := by
  have h : (toU64 (toI32 (toI32 x + 32)) : Int) = x + 32 := by
    unfold toU64 toI32; omega
  unfold chunkBytes
  simp only
  split <;> omega

theorem notU64_pow_sub_one (k : Nat) (hk : k ≤ 64) :
    notU64 (2 ^ k - 1) = 2 ^ 64 - ((2 ^ k - 1) + 1) := by
  have h1 : 2 ^ k ≤ 2 ^ 64 := Nat.pow_le_pow_right (by decide) hk
  have h2 : 0 < 2 ^ k := Nat.pow_pos (by decide)
  have h3 : (2:Nat) ^ 64 = 18446744073709551616 := by norm_num
  unfold notU64
  rw [Nat.mod_eq_of_lt (by omega)]
  omega

/-- Masking with the complement of `2^k - 1` clears the `k` low bits. -/
theorem land_notU64_mask (x k : Nat) (hx : x < 18446744073709551616) (hk : k ≤ 64) :
    x &&& notU64 (2 ^ k - 1) = x / 2 ^ k * 2 ^ k := by
  have h2 : 0 < 2 ^ k := Nat.pow_pos (by decide)
  have h1 : 2 ^ k ≤ 2 ^ 64 := Nat.pow_le_pow_right (by decide) hk
  have hx64 : x < 2 ^ 64 := by norm_num; exact hx
  rw [notU64_pow_sub_one k hk, ← Nat.shiftRight_eq_div_pow, ← Nat.shiftLeft_eq]
  apply Nat.eq_of_testBit_eq
  intro i
  rw [Nat.testBit_and, Nat.testBit_two_pow_sub_succ (by omega), Nat.testBit_shiftLeft,
    Nat.testBit_shiftRight, Nat.testBit_two_pow_sub_one]
  by_cases hik : i < k
  · have : ¬ (i ≥ k) := by omega
    simp [hik, this]
  · have hge : i ≥ k := by omega
    have hadd : k + (i - k) = i := by omega
    by_cases hi : i < 64
    · simp [hik, hge, hi, hadd]
    · have : x.testBit i = false := by
        apply Nat.testBit_lt_two_pow
        calc x < 2 ^ 64 := hx64
          _ ≤ 2 ^ i := Nat.pow_le_pow_right (by decide) (by omega)
      simp [hik, hge, hi, hadd, this]

/-- With a power-of-two alignment the mask expression of `alloc` is a rounding
down of `cur + (a - 1)` (taken in 64 bits) to a multiple of `a`. -/
theorem alignPtr_pow (cur k : Nat) (hk : k < 64) :
    alignPtr cur ((2:Int) ^ k) =
      ((cur + (2 ^ k - 1)) % 18446744073709551616) / 2 ^ k * 2 ^ k := by
  have h2 : 0 < 2 ^ k := Nat.pow_pos (by decide)
  have h1 : 2 ^ k < 2 ^ 64 := Nat.pow_lt_pow_right (by decide) hk
  have h3 : (2:Nat) ^ 64 = 18446744073709551616 := by norm_num
  have hne : ((2:Int) ^ k) ≠ 0 := by positivity
  have hc : ((2:Int) ^ k) = ((2 ^ k : Nat) : Int) := by push_cast; rfl
  unfold alignPtr
  rw [if_pos hne]
  have e1 : toU64 ((2:Int) ^ k - 1) = 2 ^ k - 1 := by
    rw [hc]; unfold toU64; omega
  have e2 : toU64 ((cur : Int) + ((2:Int) ^ k - 1)) = (cur + (2 ^ k - 1)) % 18446744073709551616 := by
    rw [hc]; unfold toU64; omega
  rw [e1, e2]
  exact land_notU64_mask _ k (Nat.mod_lt _ (by decide)) (by omega)

/-- For every power of two, representable or not, the mask expression gives a
multiple of it. -/
theorem alignPtr_pow_mod (cur k : Nat) : alignPtr cur ((2:Int) ^ k) % 2 ^ k = 0 := by
  by_cases hk : k < 64
  · rw [alignPtr_pow cur k hk]
    exact Nat.mul_mod_left _ _
  · have hne : ((2:Int) ^ k) ≠ 0 := by positivity
    have hsplit : (2:Int) ^ k = ((2 ^ (k - 64) : Nat) : Int) * 18446744073709551616 := by
      have : k = (k - 64) + 64 := by omega
      conv_lhs => rw [this, pow_add]
      push_cast
      norm_num
    have e1 : toU64 ((2:Int) ^ k - 1) = 18446744073709551615 := by
      rw [hsplit]; unfold toU64; omega
    unfold alignPtr
    rw [if_pos hne, e1]
    have : notU64 18446744073709551615 = 0 := by decide
    rw [this, Nat.and_zero]
    exact Nat.zero_mod _

/-- Where the aligned pointer lies: at or after the cursor, less than
`alignment` bytes further, provided the addition does not leave the address
space. -/
theorem alignPtr_bounds (cur : Nat) (a : Int) (ha : AlignOk a)
    (hcur : (cur : Int) + a ≤ 18446744073709551616) :
    cur ≤ alignPtr cur a ∧ (alignPtr cur a : Int) ≤ cur + a := by
  rcases ha with h0 | ⟨k, hk, hk2⟩
  · subst h0
    unfold alignPtr
    simp
  · subst hk2
    have hpos : 0 < 2 ^ k := Nat.pow_pos (by decide)
    have hc : ((2:Int) ^ k) = ((2 ^ k : Nat) : Int) := by push_cast; rfl
    rw [hc] at hcur ⊢
    rw [← hc, alignPtr_pow cur k (by omega)]
    have hlt : cur + (2 ^ k - 1) < 18446744073709551616 := by omega
    rw [Nat.mod_eq_of_lt hlt]
    have h1 := Nat.div_add_mod (cur + (2 ^ k - 1)) (2 ^ k)
    have h2 := Nat.mod_lt (cur + (2 ^ k - 1)) hpos
    rw [Nat.mul_comm] at h1
    generalize (cur + (2 ^ k - 1)) / 2 ^ k * 2 ^ k = q at h1 ⊢
    generalize (cur + (2 ^ k - 1)) % 2 ^ k = r at h1 h2
    generalize 2 ^ k = a at *
    omega

theorem AlignOk.range {a : Int} (h : AlignOk a) : 0 ≤ a ∧ a ≤ 1073741824 := by
  rcases h with h0 | ⟨k, hk, hk2⟩
  · subst h0; omega
  · subst hk2
    constructor
    · positivity
    · have : (2:Int) ^ k ≤ 2 ^ 30 := pow_le_pow_right₀ (by norm_num) (by omega)
      norm_num at this
      exact this

theorem alloc_fit (w : World) (size alignment : Int) (base : Nat)
    (h : ¬ w.arena.mChunkLeft < toU64 (toI32 (size + alignment))) :
    alloc w size alignment base =
      (alignPtr w.arena.mCurPtr alignment,
        { w with arena :=
          { w.arena with
            mChunkLeft := toU64 ((w.arena.mChunkLeft : Int) -
              (((alignPtr w.arena.mCurPtr alignment : Nat) : Int) - w.arena.mCurPtr + size))
            mCurPtr := toU64 (((alignPtr w.arena.mCurPtr alignment : Nat) : Int) + size) } }) := by
  unfold alloc
  simp only [if_neg h]

theorem alloc_grow (w : World) (size alignment : Int) (base : Nat)
    (h : w.arena.mChunkLeft < toU64 (toI32 (size + alignment))) :
    alloc w size alignment base =
      (alignPtr (toU64 ((base : Int) + 8)) alignment,
        { arena :=
          { mChunkSize := w.arena.mChunkSize
            mCurChunk := base
            mChunkLeft := toU64 ((toU64 ((chunkBytes w.arena (toI32 (size + alignment)) : Int) - 8) : Int) -
              (((alignPtr (toU64 ((base : Int) + 8)) alignment : Nat) : Int) - toU64 ((base : Int) + 8) + size))
            mCurPtr := toU64 (((alignPtr (toU64 ((base : Int) + 8)) alignment : Nat) : Int) + size) }
          word := fun x => if x = base then w.arena.mCurChunk else w.word x
          live := (base, chunkBytes w.arena (toI32 (size + alignment))) :: w.live
          freed := w.freed }) := by
  unfold alloc
  simp only [if_pos h]
  rfl

theorem Links.store_other {word : Nat → Nat} {a v : Nat} :
    ∀ {bs : List Nat} {cur : Nat}, Links word cur bs → (∀ b ∈ bs, b ≠ a) →
      Links (fun x => if x = a then v else word x) cur bs
  | [], _, h, _ => h
  | b :: bs, cur, h, hne => by
    obtain ⟨h1, h2, h3⟩ := h
    refine ⟨h1, h2, ?_⟩
    have hb : b ≠ a := hne b (List.mem_cons_self _ _)
    simp only [if_neg hb]
    exact Links.store_other h3 (fun x hx => hne x (List.mem_cons_of_mem _ hx))

/-- A call of `alloc` that finds room keeps the invariant on the same chunk
list, and serves the request between the old cursor and the new one. -/
theorem alloc_fit_step {w : World} {cs : List (Nat × Nat)} {size alignment : Int} {base : Nat}
    (hinv : Inv w cs) (hok : AllocOk w size alignment base)
    (h : ¬ w.arena.mChunkLeft < toU64 (toI32 (size + alignment))) :
    Inv (alloc w size alignment base).2 cs ∧
      w.arena.mCurPtr ≤ (alloc w size alignment base).1 ∧
      (alloc w size alignment base).2.arena.mCurPtr =
        (alloc w size alignment base).1 + size.toNat ∧
      (cs = [] → (alloc w size alignment base).1 = 0 ∧ size = 0) := by
  obtain ⟨hs0, hs1, ha, -⟩ := hok
  have har := ha.range
  have hge := toU64_toI32_ge (size + alignment) (by omega) (by omega)
  rw [alloc_fit w size alignment base h]
  simp only
  have hfit : size + alignment ≤ (w.arena.mChunkLeft : Int) := by omega
  cases cs with
  | nil =>
    have hc := hinv.cursor
    simp only at hc
    obtain ⟨hl, hp⟩ := hc
    have hsz : size = 0 := by omega
    have hal : alignment = 0 := by omega
    subst hsz hal
    have hp0 : alignPtr w.arena.mCurPtr 0 = 0 := by
      unfold alignPtr; simp [hp]
    rw [hp0]
    refine ⟨?_, by omega, ?_, fun _ => ⟨rfl, rfl⟩⟩
    · refine ⟨hinv.links, hinv.block, hinv.apart, hinv.config, hinv.oldest, ?_⟩
      simp only [hl, hp]
      decide
    · decide
  | cons c rest =>
    have hc := hinv.cursor
    simp only at hc
    obtain ⟨hlo, hhi⟩ := hc
    have hb := (hinv.block c (List.mem_cons_self _ _)).2.2
    have hbd := alignPtr_bounds w.arena.mCurPtr alignment ha (by omega)
    generalize alignPtr w.arena.mCurPtr alignment = p at hbd ⊢
    obtain ⟨hp1, hp2⟩ := hbd
    have e1 : toU64 ((p : Int) + size) = p + size.toNat := by
      unfold toU64; omega
    have e2 : (toU64 ((w.arena.mChunkLeft : Int) - ((p : Int) - w.arena.mCurPtr + size)) : Int) =
        (w.arena.mChunkLeft : Int) - ((p : Int) - w.arena.mCurPtr + size) := by
      unfold toU64; omega
    refine ⟨?_, hp1, e1, fun hnil => by cases hnil⟩
    refine ⟨hinv.links, hinv.block, hinv.apart, hinv.config, hinv.oldest, ?_⟩
    simp only
    rw [e1]
    constructor
    · omega
    · omega

theorem getLast?_cons_of_inv {α : Type} (x : α) (l : List α) (c : α)
    (h : (x :: l).getLast? = some c) : (l = [] ∧ c = x) ∨ l.getLast? = some c := by
  cases l with
  | nil =>
    left
    simp at h
    exact ⟨rfl, h.symm⟩
  | cons y t =>
    right
    rw [List.getLast?_cons_cons] at h
    exact h

/-- A call of `alloc` that grows puts the new chunk at the head of the chunk
list, keeps the invariant, and serves the request inside the new chunk. -/
theorem alloc_grow_step {w : World} {cs : List (Nat × Nat)} {size alignment : Int} {base : Nat}
    (hinv : Inv w cs) (hok : AllocOk w size alignment base)
    (h : w.arena.mChunkLeft < toU64 (toI32 (size + alignment))) :
    Inv (alloc w size alignment base).2
        ((base, chunkBytes w.arena (toI32 (size + alignment))) :: cs) ∧
      base + 8 ≤ (alloc w size alignment base).1 ∧
      (alloc w size alignment base).2.arena.mCurPtr =
        (alloc w size alignment base).1 + size.toNat := by
  obtain ⟨hs0, hs1, ha, hm⟩ := hok
  obtain ⟨hb0, hb1, hb2⟩ := hm h
  have har := ha.range
  have hcfg := hinv.config
  have hsz1 := chunkBytes_ge_config w.arena (toI32 (size + alignment))
  have hsz2 := chunkBytes_ge_need w.arena (size + alignment) (by omega) (by omega)
  rw [alloc_grow w size alignment base h]
  simp only
  generalize chunkBytes w.arena (toI32 (size + alignment)) = sz at *
  have e0 : toU64 ((base : Int) + 8) = base + 8 := by unfold toU64; omega
  have e3 : toU64 ((sz : Int) - 8) = sz - 8 := by unfold toU64; omega
  rw [e0, e3]
  have hbd := alignPtr_bounds (base + 8) alignment ha (by push_cast; omega)
  generalize alignPtr (base + 8) alignment = p at hbd ⊢
  obtain ⟨hp1, hp2⟩ := hbd
  push_cast at hp2
  have e1 : toU64 ((p : Int) + size) = p + size.toNat := by
    unfold toU64; omega
  have e2 : (toU64 (((sz - 8 : Nat) : Int) - ((p : Int) - ((base + 8 : Nat) : Int) + size)) : Int) =
      ((sz : Int) - 8) - ((p : Int) - (base + 8) + size) := by
    unfold toU64; omega
  refine ⟨?_, hp1, e1⟩
  have hne : ∀ b ∈ cs.map Prod.fst, b ≠ base := by
    intro b hb
    obtain ⟨c, hc, rfl⟩ := List.mem_map.1 hb
    obtain ⟨hl, h8, -⟩ := hinv.block c hc
    have hd := hb2 c hl
    unfold RangesDisjoint at hd
    omega
  refine ⟨?_, ?_, ?_, hcfg, ?_, ?_⟩
  · refine ⟨rfl, hb0, ?_⟩
    simp only [if_pos]
    exact Links.store_other hinv.links hne
  · intro c hc
    rcases List.mem_cons.1 hc with rfl | hc
    · exact ⟨List.mem_cons_self _ _, by simp only; omega, by simp only; omega⟩
    · obtain ⟨hl, h8, hlt⟩ := hinv.block c hc
      exact ⟨List.mem_cons_of_mem _ hl, h8, hlt⟩
  · refine List.pairwise_cons.2 ⟨?_, hinv.apart⟩
    intro d hd
    exact hb2 d (hinv.block d hd).1
  · intro c hc
    rcases getLast?_cons_of_inv _ _ _ hc with ⟨-, rfl⟩ | hc
    · exact hsz1
    · exact hinv.oldest c hc
  · simp only
    rw [e1]
    constructor
    · omega
    · omega

theorem releaseAll_nil (w : World) : releaseAll w [] = w := rfl

theorem releaseAll_cons (w : World) (p : Nat) (ps : List Nat) :
    releaseAll w (p :: ps) = releaseAll (free w p) ps := rfl

theorem releaseAll_arena : ∀ (ps : List Nat) (w : World), (releaseAll w ps).arena = w.arena
  | [], _ => rfl
  | p :: ps, w => by rw [releaseAll_cons, releaseAll_arena ps]; rfl

theorem releaseAll_word : ∀ (ps : List Nat) (w : World), (releaseAll w ps).word = w.word
  | [], _ => rfl
  | p :: ps, w => by rw [releaseAll_cons, releaseAll_word ps]; rfl

theorem releaseAll_freed : ∀ (ps : List Nat) (w : World),
    (releaseAll w ps).freed = w.freed ++ ps
  | [], w => by simp [releaseAll_nil]
  | p :: ps, w => by
    rw [releaseAll_cons, releaseAll_freed ps]
    simp [free]

theorem mem_releaseAll_live : ∀ (ps : List Nat) (w : World) (x : Nat × Nat),
    x ∈ (releaseAll w ps).live ↔ x ∈ w.live ∧ x.1 ∉ ps
  | [], w, x => by simp [releaseAll_nil]
  | p :: ps, w, x => by
    rw [releaseAll_cons, mem_releaseAll_live ps]
    simp only [free, List.mem_filter, List.mem_cons, not_or, bne_iff_ne, ne_eq]
    tauto

theorem releaseAll_with_arena : ∀ (ps : List Nat) (w : World) (a : BumpAllocator),
    releaseAll { w with arena := a } ps = { releaseAll w ps with arena := a }
  | [], _, _ => rfl
  | p :: ps, w, a => by
    rw [releaseAll_cons, releaseAll_cons]
    exact releaseAll_with_arena ps (free w p) a

/-- The loop of `reset` on a chunk list `init ++ [l]`: it returns once it has
more tests than there are chunks to release, having released `init` in order
and made `l` the current chunk. -/
theorem resetLoop_concat : ∀ (init : List Nat) (l : Nat) (w : World) (fuel : Nat),
    Links w.word w.arena.mCurChunk (init ++ [l]) → init.length < fuel →
    resetLoop fuel w =
      some { releaseAll w init with arena := { w.arena with mCurChunk := l } }
  | [], l, w, fuel, hl, hf => by
    obtain ⟨h1, h2, h3⟩ := hl
    have h3 : w.word l = 0 := h3
    obtain ⟨f, rfl⟩ : ∃ f, fuel = f + 1 := ⟨fuel - 1, by simp at hf; omega⟩
    unfold resetLoop
    rw [h1, h3]
    simp only [ne_eq, not_true_eq_false, if_false, releaseAll_nil]
    cases w with
    | mk arena word live freed =>
      cases arena
      simp only at h1
      subst h1
      rfl
  | b :: init, l, w, fuel, hl, hf => by
    obtain ⟨h1, h2, h3⟩ := hl
    obtain ⟨f, rfl⟩ : ∃ f, fuel = f + 1 := ⟨fuel - 1, by simp at hf; omega⟩
    have hnz : w.word b ≠ 0 := by
      cases init with
      | nil => exact fun h0 => h3.2.1 (h3.1 ▸ h0)
      | cons x t => exact fun h0 => h3.2.1 (h3.1 ▸ h0)
    unfold resetLoop
    rw [h1, if_pos hnz]
    simp only
    have ih := resetLoop_concat init l
      (free { w with arena := { w.arena with mCurChunk := w.word b } } b) f
      (by simpa [free] using h3) (by simp at hf; omega)
    rw [ih, releaseAll_cons]
    have : free { w with arena := { w.arena with mCurChunk := w.word b } } b =
        { free w b with arena := { w.arena with mCurChunk := w.word b } } := rfl
    rw [this, releaseAll_with_arena]

/-- The result of `reset` on a chunk list `init ++ [l]`, given more tests than there are
chunks to release. -/
theorem reset_of_links (w : World) (init : List Nat) (l : Nat) (fuel : Nat)
    (hl : Links w.word w.arena.mCurChunk (init ++ [l])) (hf : init.length < fuel) :
    reset fuel w =
      some { releaseAll w init with arena :=
        { mChunkSize := w.arena.mChunkSize
          mCurChunk := l
          mCurPtr := toU64 ((l : Int) + 8)
          mChunkLeft := toU64 ((w.arena.mChunkSize : Int) - 8) } } := by
  have hne : w.arena.mCurChunk ≠ 0 := by
    cases init with
    | nil => exact fun h0 => hl.2.1 (hl.1 ▸ h0)
    | cons x t => exact fun h0 => hl.2.1 (hl.1 ▸ h0)
  unfold reset
  rw [if_neg hne, resetLoop_concat init l w fuel hl hf]

theorem reset_of_null (w : World) (fuel : Nat) (h : w.arena.mCurChunk = 0) :
    reset fuel w = some w := by
  unfold reset
  rw [if_pos h]

theorem Links.suffix {word : Nat → Nat} {x : Nat} {post : List Nat} :
    ∀ {pre : List Nat} {cur : Nat}, Links word cur (pre ++ x :: post) →
      Links word x (x :: post)
  | [], _, h => ⟨rfl, h.2.1, h.2.2⟩
  | _ :: _, _, h => Links.suffix h.2.2

theorem Links.unique {word : Nat → Nat} :
    ∀ {bs bs' : List Nat} {cur : Nat}, Links word cur bs → Links word cur bs' → bs = bs'
  | [], [], _, _, _ => rfl
  | [], b :: _, _, h, h' => absurd (h'.1 ▸ h) h'.2.1
  | b :: _, [], _, h, h' => absurd (h.1 ▸ h') h.2.1
  | b :: bs, b' :: bs', cur, h, h' => by
    have e : b = b' := h.1.symm.trans h'.1
    subst e
    rw [Links.unique h.2.2 h'.2.2]

/-- A chunk list read from memory has no chunk twice. -/
theorem Links.nodup {word : Nat → Nat} :
    ∀ {bs : List Nat} {cur : Nat}, Links word cur bs → bs.Nodup
  | [], _, _ => List.nodup_nil
  | b :: bs, cur, h => by
    refine List.nodup_cons.2 ⟨?_, Links.nodup h.2.2⟩
    intro hb
    obtain ⟨pre, post, hsplit⟩ := List.append_of_mem hb
    have h1 : Links word (word b) (pre ++ b :: post) := hsplit ▸ h.2.2
    have h2 : Links word b (b :: post) := Links.suffix h1
    have h3 : Links word b (b :: bs) := ⟨rfl, h.2.1, h.2.2⟩
    have h4 := Links.unique h2 h3
    have h5 : post.length = bs.length := by
      have := congrArg List.length h4
      simpa using this
    have h6 := congrArg List.length hsplit
    simp at h6
    omega

theorem Inv.bases_nodup {w : World} {cs : List (Nat × Nat)} (hinv : Inv w cs) :
    (cs.map Prod.fst).Nodup := Links.nodup hinv.links

theorem Inv.length_le {w : World} {cs : List (Nat × Nat)} (hinv : Inv w cs) :
    cs.length ≤ w.live.length := by
  have hn : cs.Nodup := List.Nodup.of_map _ hinv.bases_nodup
  have hs : cs ⊆ w.live := fun c hc => (hinv.block c hc).1
  exact (List.subperm_of_subset hn hs).length_le

/-- In a state that satisfies the invariant `reset` returns, keeps the
invariant on the oldest chunk alone, and rewinds to that chunk's start. -/
theorem reset_step {w : World} {cs : List (Nat × Nat)} (hinv : Inv w cs) :
    ∃ w1, reset (w.live.length + 1) w = some w1 ∧ Inv w1 cs.getLast?.toList ∧
      w1.arena.mChunkSize = w.arena.mChunkSize ∧
      ∀ cl, cs.getLast? = some cl →
        w1.arena.mCurChunk = cl.1 ∧ w1.arena.mCurPtr = cl.1 + 8 ∧
        w1.arena.mChunkLeft = w.arena.mChunkSize - 8 := by
  rcases List.eq_nil_or_concat cs with rfl | ⟨init, cl, hcs⟩
  · refine ⟨w, reset_of_null w _ hinv.links, ?_, rfl, ?_⟩
    · simpa using hinv
    · intro cl h
      simp at h
  · rw [List.concat_eq_append] at hcs
    subst hcs
    have hgl : (init ++ [cl]).getLast? = some cl := by simp
    have hlen := hinv.length_le
    have hlinks : Links w.word w.arena.mCurChunk (init.map Prod.fst ++ [cl.1]) := by
      have := hinv.links
      simpa using this
    have hr := reset_of_links w (init.map Prod.fst) cl.1 (w.live.length + 1) hlinks
      (by simp at hlen ⊢; omega)
    obtain ⟨hcl_live, hcl8, hcl_lt⟩ := hinv.block cl (by simp)
    have hcfg := hinv.config
    have hold := hinv.oldest cl (by simp)
    have hnd : (init.map Prod.fst ++ [cl.1]).Nodup := by
      have := hinv.bases_nodup
      simpa using this
    have hnotin : cl.1 ∉ init.map Prod.fst := by
      intro hmem
      have := (List.nodup_append.1 hnd).2.2
      exact this hmem (by simp) 
    have hlast : Links w.word cl.1 [cl.1] := Links.suffix hlinks
    have e0 : toU64 ((cl.1 : Int) + 8) = cl.1 + 8 := by unfold toU64; omega
    have e1 : toU64 ((w.arena.mChunkSize : Int) - 8) = w.arena.mChunkSize - 8 := by
      unfold toU64; omega
    rw [e0, e1] at hr
    refine ⟨_, hr, ?_, rfl, ?_⟩
    · rw [hgl]
      simp only [Option.toList]
      refine ⟨?_, ?_, List.pairwise_singleton _ _, hcfg, ?_, ?_⟩
      · simp only [List.map, releaseAll_word]
        exact hlast
      · intro c hc
        rw [List.mem_singleton] at hc
        subst hc
        refine ⟨?_, hcl8, hcl_lt⟩
        simp only [mem_releaseAll_live]
        exact ⟨hcl_live, hnotin⟩
      · intro c hc
        simp only [List.getLast?_singleton, Option.some.injEq] at hc
        subst hc
        exact hold
      · simp only
        omega
    · intro c hc
      rw [hgl, Option.some.injEq] at hc
      subst hc
      exact ⟨rfl, rfl, rfl⟩

theorem fresh_inv (chunkSize : Int) (word : Nat → Nat) (live : List (Nat × Nat))
    (h8 : 8 ≤ chunkSize) (h31 : chunkSize < 2147483648) :
    Inv (World.fresh chunkSize word live) [] := by
  have e : toU64 chunkSize = chunkSize.toNat := by unfold toU64; omega
  refine ⟨rfl, ?_, List.Pairwise.nil, ?_, ?_, ⟨rfl, rfl⟩⟩
  · intro c hc; cases hc
  · simp only [World.fresh, BumpAllocator.new, e]
    omega
  · intro c hc; simp at hc

theorem alloc_chunkSize (w : World) (size alignment : Int) (base : Nat) :
    (alloc w size alignment base).2.arena.mChunkSize = w.arena.mChunkSize := by
  by_cases h : w.arena.mChunkLeft < toU64 (toI32 (size + alignment))
  · rw [alloc_grow w size alignment base h]
  · rw [alloc_fit w size alignment base h]

/-- One admissible `alloc` in a state satisfying the invariant: the invariant
holds afterwards on a chunk list that is the old one, possibly with one new
chunk in front, and the issued regions stay accounted for. -/
theorem alloc_session_step {s : Session} {cs : List (Nat × Nat)} {size alignment : Int}
    {base : Nat} (hinv : Inv s.world cs) (hiss : IssuedIn s cs)
    (hok : AllocOk s.world size alignment base) :
    ∃ s1 cs1, s.step (Op.alloc size alignment base) = some s1 ∧
      Inv s1.world cs1 ∧ IssuedIn s1 cs1 ∧
      (cs1 = cs ∨ ∃ c, cs1 = c :: cs) := by
  by_cases h : s.world.arena.mChunkLeft < toU64 (toI32 (size + alignment))
  · obtain ⟨hi, hp, hc⟩ := alloc_grow_step hinv hok h
    refine ⟨_, _, rfl, hi, ?_, Or.inr ⟨_, rfl⟩⟩
    intro r hr
    simp only at hr
    rcases List.mem_cons.1 hr with rfl | hr
    · right; left
      refine ⟨_, rfl, ?_, ?_⟩
      · simpa using hp
      · simp only [hc]; exact le_refl _
    · rcases hiss r hr with h0 | ⟨c, hhead, h1, h2⟩ | ⟨d, hd, h1, h2⟩
      · exact Or.inl h0
      · right; right
        cases cs with
        | nil => simp at hhead
        | cons c0 rest =>
          simp only [List.head?_cons, Option.some.injEq] at hhead
          subst hhead
          have hcur := hinv.cursor
          simp only at hcur
          exact ⟨c0, by simp, by omega, by omega⟩
      · right; right
        exact ⟨d, by simpa using List.mem_of_mem_tail hd, h1, h2⟩
  · obtain ⟨hi, hp, hc, hnil⟩ := alloc_fit_step hinv hok h
    refine ⟨_, _, rfl, hi, ?_, Or.inl rfl⟩
    intro r hr
    simp only at hr
    rcases List.mem_cons.1 hr with rfl | hr
    · cases cs with
      | nil =>
        left
        obtain ⟨h1, h2⟩ := hnil rfl
        rw [h1, h2]
        rfl
      | cons c0 rest =>
        right; left
        have hcur := hinv.cursor
        simp only at hcur
        refine ⟨c0, rfl, ?_, ?_⟩
        · simp only; omega
        · simp only [hc]; exact le_refl _
    · rcases hiss r hr with h0 | ⟨c, hhead, h1, h2⟩ | ⟨d, hd, h1, h2⟩
      · exact Or.inl h0
      · right; left
        refine ⟨c, hhead, h1, ?_⟩
        simp only [hc]
        omega
      · exact Or.inr (Or.inr ⟨d, hd, h1, h2⟩)

theorem reset_session_step {s : Session} {cs : List (Nat × Nat)} (hinv : Inv s.world cs) :
    ∃ s1, s.step Op.reset = some s1 ∧ Inv s1.world cs.getLast?.toList ∧
      IssuedIn s1 cs.getLast?.toList ∧ s1.issued = [] ∧
      s1.world.arena.mChunkSize = s.world.arena.mChunkSize ∧
      ∀ cl, cs.getLast? = some cl →
        s1.world.arena.mCurChunk = cl.1 ∧ s1.world.arena.mCurPtr = cl.1 + 8 ∧
        s1.world.arena.mChunkLeft = s.world.arena.mChunkSize - 8 := by
  obtain ⟨w1, hr, hi, hsz, hcl⟩ := reset_step hinv
  refine ⟨{ world := w1, issued := [] }, ?_, hi, ?_, rfl, hsz, hcl⟩
  · simp only [Session.step, hr]
  · intro r hr
    cases hr

/-- An admissible sequence of calls from a state satisfying the invariant runs
to the end, keeps the invariant and the configured chunk size, and keeps the
oldest chunk once there is one. -/
theorem run_inv : ∀ (ops : List Op) (s : Session) (cs : List (Nat × Nat)),
    Inv s.world cs → IssuedIn s cs → TraceOk s ops →
    ∃ s1 cs1, s.run ops = some s1 ∧ Inv s1.world cs1 ∧ IssuedIn s1 cs1 ∧
      s1.world.arena.mChunkSize = s.world.arena.mChunkSize ∧
      ∀ cl, cs.getLast? = some cl → cs1.getLast? = some cl
  | [], s, cs, hinv, hiss, _ => ⟨s, cs, rfl, hinv, hiss, rfl, fun _ h => h⟩
  | Op.alloc size alignment base :: ops, s, cs, hinv, hiss, htr => by
    obtain ⟨hok, hrest⟩ := htr
    obtain ⟨s1, cs1, hstep, hi1, his1, hcs⟩ := alloc_session_step hinv hiss hok
    rw [hstep] at hrest
    obtain ⟨s2, cs2, hrun, hi2, his2, hsz, hl⟩ := run_inv ops s1 cs1 hi1 his1 hrest
    refine ⟨s2, cs2, ?_, hi2, his2, ?_, ?_⟩
    · simp only [Session.run, hstep, hrun]
    · rw [hsz]
      have : s1 = { world := (alloc s.world size alignment base).2,
                    issued := ((alloc s.world size alignment base).1, size.toNat) :: s.issued } := by
        simpa [Session.step] using hstep.symm
      rw [this]
      exact alloc_chunkSize _ _ _ _
    · intro cl hcl
      apply hl
      rcases hcs with rfl | ⟨c, rfl⟩
      · exact hcl
      · cases cs with
        | nil => simp at hcl
        | cons c0 rest => rw [List.getLast?_cons_cons]; exact hcl
  | Op.reset :: ops, s, cs, hinv, hiss, htr => by
    obtain ⟨-, hrest⟩ := htr
    obtain ⟨s1, hstep, hi1, his1, -, hsz1, -⟩ := reset_session_step hinv
    rw [hstep] at hrest
    obtain ⟨s2, cs2, hrun, hi2, his2, hsz, hl⟩ := run_inv ops s1 _ hi1 his1 hrest
    refine ⟨s2, cs2, ?_, hi2, his2, hsz.trans hsz1, ?_⟩
    · simp only [Session.run, hstep, hrun]
    · intro cl hcl
      apply hl
      rw [hcl]
      rfl

theorem traceOk_append : ∀ (ops : List Op) (s : Session) (op : Op),
    TraceOk s (ops ++ [op]) →
    TraceOk s ops ∧ ∀ s1, s.run ops = some s1 → OpOk s1.world op
  | [], s, op, h => ⟨trivial, fun s1 hs => by
      simp only [Session.run, Option.some.injEq] at hs
      subst hs
      exact h.1⟩
  | o :: ops, s, op, h => by
    obtain ⟨h1, h2⟩ := h
    cases hstep : s.step o with
    | none => rw [hstep] at h2; exact h2.elim
    | some s1 =>
      rw [hstep] at h2
      obtain ⟨h3, h4⟩ := traceOk_append ops s1 op h2
      refine ⟨⟨h1, ?_⟩, ?_⟩
      · rw [hstep]; exact h3
      · intro s2 hs
        simp only [Session.run, hstep] at hs
        exact h4 s2 hs

theorem Inv.cursor_in_chunk {w : World} {cs : List (Nat × Nat)} (hinv : Inv w cs)
    (h : w.arena.mCurChunk ≠ 0) :
    ∃ sz, (w.arena.mCurChunk, sz) ∈ w.live ∧ w.arena.mCurChunk + 8 ≤ w.arena.mCurPtr ∧
      w.arena.mCurPtr ≤ w.arena.mCurChunk + sz := by
  cases cs with
  | nil => exact absurd hinv.links h
  | cons c rest =>
    have hl : w.arena.mCurChunk = c.1 := hinv.links.1
    have hc := hinv.cursor
    simp only at hc
    have hb := (hinv.block c (List.mem_cons_self _ _)).1
    refine ⟨c.2, ?_, ?_, ?_⟩
    · rw [hl]; exact hb
    · omega
    · omega

/-- The region an admissible `alloc` of a positive size returns, in a state
satisfying the invariant: it lies in the chunk that is current after the call,
past the link word, and it meets none of the regions issued before. -/
theorem alloc_region {s : Session} {cs : List (Nat × Nat)} {size alignment : Int} {base : Nat}
    (hinv : Inv s.world cs) (hiss : IssuedIn s cs)
    (hok : AllocOk s.world size alignment base) (hpos : 0 < size) :
    ∃ sz, ((alloc s.world size alignment base).2.arena.mCurChunk, sz) ∈
          (alloc s.world size alignment base).2.live ∧
      (alloc s.world size alignment base).2.arena.mCurChunk + 8 ≤
        (alloc s.world size alignment base).1 ∧
      (alloc s.world size alignment base).1 + size.toNat ≤
        (alloc s.world size alignment base).2.arena.mCurChunk + sz ∧
      (alloc s.world size alignment base).2.arena.mCurChunk + 8 ≤
        (alloc s.world size alignment base).2.arena.mCurPtr ∧
      (alloc s.world size alignment base).2.arena.mCurPtr ≤
        (alloc s.world size alignment base).2.arena.mCurChunk + sz ∧
      ∀ q ∈ s.issued, RangesDisjoint (alloc s.world size alignment base).1 size.toNat q.1 q.2 := by
  by_cases h : s.world.arena.mChunkLeft < toU64 (toI32 (size + alignment))
  · obtain ⟨hi, hp, hc⟩ := alloc_grow_step hinv hok h
    have hm := hok.2.2.2 h
    have hl : (alloc s.world size alignment base).2.arena.mCurChunk = base := hi.links.1
    have hcur := hi.cursor
    simp only at hcur
    have hb := (hi.block _ (List.mem_cons_self _ _)).1
    refine ⟨chunkBytes s.world.arena (toI32 (size + alignment)), ?_, ?_, ?_, ?_, ?_, ?_⟩
    · rw [hl]; exact hb
    · omega
    · omega
    · omega
    · omega
    · intro q hq
      have hreg : ∀ d ∈ cs, d.1 ≤ q.1 → q.1 + q.2 ≤ d.1 + d.2 →
          RangesDisjoint (alloc s.world size alignment base).1 size.toNat q.1 q.2 := by
        intro d hd h1 h2
        have := hm.2.2 d (hinv.block d hd).1
        unfold RangesDisjoint at this ⊢
        omega
      rcases hiss q hq with h0 | ⟨c, hhead, h1, h2⟩ | ⟨d, hd, h1, h2⟩
      · rw [h0]; right; simp
      · cases cs with
        | nil => simp at hhead
        | cons c0 rest =>
          simp only [List.head?_cons, Option.some.injEq] at hhead
          subst hhead
          have hcur0 := hinv.cursor
          simp only at hcur0
          exact hreg c0 (List.mem_cons_self _ _) (by omega) (by omega)
      · exact hreg d (List.mem_of_mem_tail hd) h1 h2
  · obtain ⟨hi, hp, hc, hnil⟩ := alloc_fit_step hinv hok h
    cases cs with
    | nil =>
      have := (hnil rfl).2
      omega
    | cons c0 rest =>
      have hl : (alloc s.world size alignment base).2.arena.mCurChunk = c0.1 := hi.links.1
      have hcur := hi.cursor
      simp only at hcur
      have hcur0 := hinv.cursor
      simp only at hcur0
      have hb := (hi.block _ (List.mem_cons_self _ _)).1
      refine ⟨c0.2, ?_, ?_, ?_, ?_, ?_, ?_⟩
      · rw [hl]; exact hb
      · omega
      · omega
      · omega
      · omega
      · intro q hq
        rcases hiss q hq with h0 | ⟨c, hhead, h1, h2⟩ | ⟨d, hd, h1, h2⟩
        · rw [h0]; right; simp
        · right; omega
        · have hap := List.rel_of_pairwise_cons hinv.apart hd
          unfold RangesDisjoint at hap ⊢
          omega

/-- Requests whose total demand `size + alignment` fits in what is left of the
current chunk are all served from it, each after the one before. -/
theorem fit_run : ∀ (reqs : List (Int × Int × Nat)) (s : Session),
    s.world.arena.mCurPtr + s.world.arena.mChunkLeft < 18446744073709551616 →
    (∀ r ∈ reqs, 0 ≤ r.1 ∧ AlignOk r.2.1 ∧ r.1 + r.2.1 < 2147483648) →
    (reqs.map (fun r => r.1 + r.2.1)).sum ≤ (s.world.arena.mChunkLeft : Int) →
    (∀ q ∈ s.issued, q.1 + q.2 ≤ s.world.arena.mCurPtr) →
    s.issued.Pairwise After →
    ∃ s1, s.run (allocCalls reqs) = some s1 ∧ s1.issued.Pairwise After ∧
      s1.world.live = s.world.live ∧ s1.world.arena.mCurChunk = s.world.arena.mCurChunk ∧
      s1.issued.length = s.issued.length + reqs.length
  | [], s, _, _, _, _, hpw => ⟨s, rfl, hpw, rfl, rfl, rfl⟩
  | (size, alignment, base) :: reqs, s, hsp, hargs, hsum, hbelow, hpw => by
    obtain ⟨hs0, ha, hlt⟩ := hargs (size, alignment, base) (List.mem_cons_self _ _)
    simp only at hs0 ha hlt
    have har := ha.range
    simp only [List.map_cons, List.sum_cons] at hsum
    have hrest : ∀ r ∈ reqs, 0 ≤ r.1 + r.2.1 := fun r hr => by
      obtain ⟨h1, h2, -⟩ := hargs r (List.mem_cons_of_mem _ hr)
      have := h2.range
      omega
    have hnn : 0 ≤ (reqs.map (fun r => r.1 + r.2.1)).sum :=
      List.sum_nonneg (fun x hx => by
        obtain ⟨r, hr, rfl⟩ := List.mem_map.1 hx
        exact hrest r hr)
    have hsm := toU64_toI32_small (size + alignment) (by omega) hlt
    have hfit : ¬ s.world.arena.mChunkLeft < toU64 (toI32 (size + alignment)) := by omega
    have hbd := alignPtr_bounds s.world.arena.mCurPtr alignment ha (by omega)
    have hstep : s.step (Op.alloc size alignment base) =
        some { world := (alloc s.world size alignment base).2,
               issued := ((alloc s.world size alignment base).1, size.toNat) :: s.issued } := rfl
    rw [alloc_fit s.world size alignment base hfit] at hstep
    simp only at hstep
    generalize alignPtr s.world.arena.mCurPtr alignment = p at hbd hstep
    obtain ⟨hp1, hp2⟩ := hbd
    have e1 : toU64 ((p : Int) + size) = p + size.toNat := by
      unfold toU64; omega
    have e2 : (toU64 ((s.world.arena.mChunkLeft : Int) - ((p : Int) - s.world.arena.mCurPtr + size)) : Int) =
        (s.world.arena.mChunkLeft : Int) - ((p : Int) - s.world.arena.mCurPtr + size) := by
      unfold toU64; omega
    obtain ⟨s1, hrun, hpw1, hlive, hchunk, hlen⟩ := fit_run reqs
      { world :=
          { s.world with arena :=
            { s.world.arena with
              mChunkLeft := toU64 ((s.world.arena.mChunkLeft : Int) -
                ((p : Int) - s.world.arena.mCurPtr + size))
              mCurPtr := toU64 ((p : Int) + size) } }
        issued := (p, size.toNat) :: s.issued }
      (by simp only; rw [e1]; omega)
      (fun r hr => hargs r (List.mem_cons_of_mem _ hr))
      (by simp only; omega)
      (by
        intro q hq
        simp only at hq ⊢
        rw [e1]
        rcases List.mem_cons.1 hq with rfl | hq
        · exact le_refl _
        · have := hbelow q hq
          omega)
      (by
        simp only
        refine List.pairwise_cons.2 ⟨?_, hpw⟩
        intro q hq
        have := hbelow q hq
        unfold After
        simp only
        omega)
    refine ⟨s1, ?_, hpw1, hlive, hchunk, ?_⟩
    · simp only [allocCalls, List.map_cons, Session.run, hstep]
      exact hrun
    · rw [hlen]
      simp only [List.length_cons]
      omega

theorem run_snoc : ∀ (ops : List Op) (s s1 s2 : Session) (op : Op),
    s.run ops = some s1 → s1.step op = some s2 → s.run (ops ++ [op]) = some s2
  | [], s, s1, s2, op, h1, h2 => by
    simp only [Session.run, Option.some.injEq] at h1
    subst h1
    simp only [List.nil_append, Session.run, h2]
  | o :: ops, s, s1, s2, op, h1, h2 => by
    cases hstep : s.step o with
    | none => simp only [Session.run, hstep] at h1; cases h1
    | some s' =>
      simp only [Session.run, hstep] at h1
      simp only [List.cons_append, Session.run, hstep]
      exact run_snoc ops s' s1 s2 op h1 h2

theorem toI32_range (x : Int) : -2147483648 ≤ toI32 x ∧ toI32 x < 2147483648 := by
  unfold toI32; omega

/-- The loop of `unsafeutility_memcpystride` never ends when `count` is not a
value of `int`: the counter `int i` cannot become equal to it. -/
theorem memcpystrideLoop_diverges (destinationStride sourceStride elementSize count : Int)
    (hcount : 2147483648 ≤ count ∨ count < -2147483648) :
    ∀ (fuel : Nat) (i : Int) (destination source : Nat) (m : Nat → Nat),
      -2147483648 ≤ i → i < 2147483648 →
      memcpystrideLoop destinationStride sourceStride elementSize count fuel i
        destination source m = none
  | 0, _, _, _, _, _, _ => rfl
  | fuel + 1, i, destination, source, m, h1, h2 => by
    have hne : i ≠ count := by omega
    unfold memcpystrideLoop
    rw [if_pos hne]
    exact memcpystrideLoop_diverges destinationStride sourceStride elementSize count hcount
      fuel _ _ _ _ (toI32_range _).1 (toI32_range _).2

/-- The loop of `unsafeutility_memcpystride`, entered after `k` elements, ends
after the remaining `n` elements with the memory `copyElems` describes. -/
theorem memcpystrideLoop_run (m : Nat → Nat) (dst dS src sS es count : Nat)
    (hcount : count < 2147483648) (hes : es < 18446744073709551616)
    (hd : dst + count * dS < 18446744073709551616)
    (hs : src + count * sS < 18446744073709551616) :
    ∀ (n k fuel : Nat), k + n = count → n < fuel →
      memcpystrideLoop (dS : Int) (sS : Int) (es : Int) (count : Int) fuel (k : Int)
        (dst + k * dS) (src + k * sS) (copyElems m dst dS src sS es k) =
      some (copyElems m dst dS src sS es count)
  | 0, k, fuel, hk, hf => by
    obtain ⟨f, rfl⟩ : ∃ f, fuel = f + 1 := ⟨fuel - 1, by omega⟩
    have : k = count := by omega
    subst this
    unfold memcpystrideLoop
    simp
  | n + 1, k, fuel, hk, hf => by
    obtain ⟨f, rfl⟩ : ∃ f, fuel = f + 1 := ⟨fuel - 1, by omega⟩
    have hne : (k : Int) ≠ (count : Int) := by omega
    have hmul1 : (k + 1) * dS ≤ count * dS := Nat.mul_le_mul_right _ (by omega)
    have hmul2 : (k + 1) * sS ≤ count * sS := Nat.mul_le_mul_right _ (by omega)
    have hexp1 : (k + 1) * dS = k * dS + dS := by ring
    have hexp2 : (k + 1) * sS = k * sS + sS := by ring
    have e1 : toI32 ((k : Int) + 1) = ((k + 1 : Nat) : Int) := by
      unfold toI32; omega
    have e2 : toU64 (((dst + k * dS : Nat) : Int) + (dS : Int)) = dst + (k + 1) * dS := by
      unfold toU64; omega
    have e3 : toU64 (((src + k * sS : Nat) : Int) + (sS : Int)) = src + (k + 1) * sS := by
      unfold toU64; omega
    have e4 : toU64 (es : Int) = es := by unfold toU64; omega
    unfold memcpystrideLoop
    rw [if_pos hne, e1, e2, e3, e4]
    exact memcpystrideLoop_run m dst dS src sS es count hcount hes hd hs n (k + 1) f
      (by omega) (by omega)

/-- What `copyElems` holds after `k` elements, for strides at least the element
size and buffers that do not overlap: slot `i < k` of the destination holds
slot `i` of the source as it was, and every other byte is as it was. -/
theorem copyElems_spec (m : Nat → Nat) (dst dS src sS es count : Nat)
    (hdS : es ≤ dS) (hsS : es ≤ sS)
    (hdisj : dst + count * dS ≤ src ∨ src + count * sS ≤ dst) :
    ∀ k, k ≤ count →
      (∀ i j, i < k → j < es →
        copyElems m dst dS src sS es k (dst + i * dS + j) = m (src + i * sS + j)) ∧
      (∀ a, (∀ i j, i < k → j < es → a ≠ dst + i * dS + j) →
        copyElems m dst dS src sS es k a = m a)
  | 0, _ => ⟨fun i j hi => absurd hi (Nat.not_lt_zero _), fun a _ => rfl⟩
  | k + 1, hk => by
    obtain ⟨ih1, ih2⟩ := copyElems_spec m dst dS src sS es count hdS hsS hdisj k (by omega)
    have hmulk : (k + 1) * dS ≤ count * dS := Nat.mul_le_mul_right _ hk
    have hmulk2 : (k + 1) * sS ≤ count * sS := Nat.mul_le_mul_right _ hk
    have hexpk : (k + 1) * dS = k * dS + dS := by ring
    have hexpk2 : (k + 1) * sS = k * sS + sS := by ring
    -- a source byte of element `k` lies in no destination slot
    have hsrc : ∀ j, j < es →
        copyElems m dst dS src sS es k (src + k * sS + j) = m (src + k * sS + j) := by
      intro j hj
      apply ih2
      intro i j' hi hj' heq
      have h1 : (i + 1) * dS ≤ count * dS := Nat.mul_le_mul_right _ (by omega)
      have h2 : (i + 1) * dS = i * dS + dS := by ring
      omega
    constructor
    · intro i j hi hj
      show memcpy _ _ _ _ _ = _
      unfold memcpy
      by_cases hik : i = k
      · subst hik
        have hin : dst + i * dS ≤ dst + i * dS + j ∧ dst + i * dS + j < dst + i * dS + es := by
          omega
        rw [if_pos hin]
        have : src + i * sS + (dst + i * dS + j - (dst + i * dS)) = src + i * sS + j := by omega
        rw [this]
        exact hsrc j hj
      · have hlt : i < k := by omega
        have h1 : (i + 1) * dS ≤ k * dS := Nat.mul_le_mul_right _ (by omega)
        have h2 : (i + 1) * dS = i * dS + dS := by ring
        have hout : ¬ (dst + k * dS ≤ dst + i * dS + j ∧ dst + i * dS + j < dst + k * dS + es) := by
          omega
        rw [if_neg hout]
        exact ih1 i j hlt hj
    · intro a ha
      show memcpy _ _ _ _ _ = _
      unfold memcpy
      have hout : ¬ (dst + k * dS ≤ a ∧ a < dst + k * dS + es) := by
        intro hin
        exact ha k (a - (dst + k * dS)) (by omega) (by omega) (by omega)
      rw [if_neg hout]
      exact ih2 a (fun i j hi hj => ha i j (by omega) hj)

/-- With both strides equal to the element size, copying `count` elements one
by one between buffers that do not overlap gives the memory of one `memcpy` of
`count * es` bytes. -/
theorem copyElems_flat (m : Nat → Nat) (dst src es count : Nat)
    (hdisj : dst + count * es ≤ src ∨ src + count * es ≤ dst) (a : Nat) :
    copyElems m dst es src es es count a = memcpy m dst src (count * es) a := by
  obtain ⟨h1, h2⟩ := copyElems_spec m dst es src es es count (le_refl _) (le_refl _) hdisj
    count (le_refl _)
  unfold memcpy
  by_cases hin : dst ≤ a ∧ a < dst + count * es
  · rw [if_pos hin]
    have hes : 0 < es := by
      rcases Nat.eq_zero_or_pos es with h0 | h0
      · subst h0; simp at hin; omega
      · exact h0
    have hdm := Nat.div_add_mod (a - dst) es
    have hml := Nat.mod_lt (a - dst) hes
    have hi : (a - dst) / es < count := by
      apply Nat.div_lt_of_lt_mul
      rw [Nat.mul_comm]
      omega
    have hmc : es * ((a - dst) / es) = (a - dst) / es * es := Nat.mul_comm _ _
    have ha : a = dst + (a - dst) / es * es + (a - dst) % es := by omega
    have := h1 ((a - dst) / es) ((a - dst) % es) hi hml
    rw [← ha] at this
    rw [this]
    congr 1
    omega
  · rw [if_neg hin]
    apply h2
    intro i j hi hj heq
    have h3 : (i + 1) * es ≤ count * es := Nat.mul_le_mul_right _ (by omega)
    have h4 : (i + 1) * es = i * es + es := by ring
    omega

/-- The loop of `unsafeutility_memcpyreplicate`, entered after `k` copies, ends
after the remaining `n` copies with the memory `replElems` describes. -/
theorem memcpyreplicateLoop_run (m : Nat → Nat) (dst src size count : Nat)
    (hcount : count < 2147483648) (hsz : size < 18446744073709551616)
    (hd : dst + count * size < 18446744073709551616) :
    ∀ (n k fuel : Nat), k + n = count → n < fuel →
      memcpyreplicateLoop src (size : Int) (count : Int) fuel (k : Int) (dst + k * size)
        (replElems m dst src size k) =
      some (replElems m dst src size count)
  | 0, k, fuel, hk, hf => by
    obtain ⟨f, rfl⟩ : ∃ f, fuel = f + 1 := ⟨fuel - 1, by omega⟩
    have : k = count := by omega
    subst this
    unfold memcpyreplicateLoop
    simp
  | n + 1, k, fuel, hk, hf => by
    obtain ⟨f, rfl⟩ : ∃ f, fuel = f + 1 := ⟨fuel - 1, by omega⟩
    have hlt : (k : Int) < (count : Int) := by omega
    have hmul1 : (k + 1) * size ≤ count * size := Nat.mul_le_mul_right _ (by omega)
    have hexp1 : (k + 1) * size = k * size + size := by ring
    have e1 : toI32 ((k : Int) + 1) = ((k + 1 : Nat) : Int) := by
      unfold toI32; omega
    have e2 : toU64 (((dst + k * size : Nat) : Int) + (size : Int)) = dst + (k + 1) * size := by
      unfold toU64; omega
    have e4 : toU64 (size : Int) = size := by unfold toU64; omega
    unfold memcpyreplicateLoop
    rw [if_pos hlt, e1, e2, e4]
    exact memcpyreplicateLoop_run m dst src size count hcount hsz hd n (k + 1) f
      (by omega) (by omega)

/-- What `replElems` holds after `k` copies, for a pattern that does not
overlap the destination: every slot `i < k` holds the pattern as it was, and
every other byte is as it was. -/
theorem replElems_spec (m : Nat → Nat) (dst src size count : Nat)
    (hdisj : dst + count * size ≤ src ∨ src + size ≤ dst) :
    ∀ k, k ≤ count →
      (∀ i j, i < k → j < size → replElems m dst src size k (dst + i * size + j) = m (src + j)) ∧
      (∀ a, (∀ i j, i < k → j < size → a ≠ dst + i * size + j) →
        replElems m dst src size k a = m a)
  | 0, _ => ⟨fun i j hi => absurd hi (Nat.not_lt_zero _), fun a _ => rfl⟩
  | k + 1, hk => by
    obtain ⟨ih1, ih2⟩ := replElems_spec m dst src size count hdisj k (by omega)
    have hsrc : ∀ j, j < size → replElems m dst src size k (src + j) = m (src + j) := by
      intro j hj
      apply ih2
      intro i j' hi hj' heq
      have h1 : (i + 1) * size ≤ count * size := Nat.mul_le_mul_right _ (by omega)
      have h2 : (i + 1) * size = i * size + size := by ring
      omega
    constructor
    · intro i j hi hj
      show memcpy _ _ _ _ _ = _
      unfold memcpy
      by_cases hik : i = k
      · subst hik
        have hin : dst + i * size ≤ dst + i * size + j ∧
            dst + i * size + j < dst + i * size + size := by omega
        rw [if_pos hin]
        have : src + (dst + i * size + j - (dst + i * size)) = src + j := by omega
        rw [this]
        exact hsrc j hj
      · have hlt : i < k := by omega
        have h1 : (i + 1) * size ≤ k * size := Nat.mul_le_mul_right _ (by omega)
        have h2 : (i + 1) * size = i * size + size := by ring
        have hout : ¬ (dst + k * size ≤ dst + i * size + j ∧
            dst + i * size + j < dst + k * size + size) := by omega
        rw [if_neg hout]
        exact ih1 i j hlt hj
    · intro a ha
      show memcpy _ _ _ _ _ = _
      unfold memcpy
      have hout : ¬ (dst + k * size ≤ a ∧ a < dst + k * size + size) := by
        intro hin
        exact ha k (a - (dst + k * size)) (by omega) (by omega) (by omega)
      rw [if_neg hout]
      exact ih2 a (fun i j hi hj => ha i j (by omega) hj)

/-- The loop branch of `unsafeutility_memcpystride` does what the contract says
for a `count` that is a non-negative `int`: it returns, every destination slot
holds the matching source slot as it was, and no other byte changes. -/
theorem memcpystrideLoop_correct (m : Nat → Nat) (dst dS src sS es count fuel : Nat)
    (hcount : count < 2147483648) (hes31 : es < 2147483648) (hdS : es ≤ dS) (hsS : es ≤ sS)
    (hd : dst + count * dS < 18446744073709551616)
    (hs : src + count * sS < 18446744073709551616)
    (hdisj : dst + count * dS ≤ src ∨ src + count * sS ≤ dst) (hf : count < fuel) :
    ∃ m1, memcpystrideLoop (dS : Int) (sS : Int) (es : Int) (count : Int) fuel 0 dst src m =
        some m1 ∧
      (∀ i j, i < count → j < es → m1 (dst + i * dS + j) = m (src + i * sS + j)) ∧
      (∀ a, (∀ i j, i < count → j < es → a ≠ dst + i * dS + j) → m1 a = m a) := by
  have hes : es < 18446744073709551616 := by omega
  have hrun := memcpystrideLoop_run m dst dS src sS es count hcount hes hd hs count 0 fuel
    (by omega) hf
  simp only [Nat.zero_mul, Nat.add_zero, Nat.cast_zero] at hrun
  exact ⟨_, hrun, copyElems_spec m dst dS src sS es count hdS hsS hdisj count (le_refl _)⟩

namespace GuardHeap

/-- The rounded header address: the first multiple of 64 at or after the
platform's address, when that does not leave the address space. -/
theorem alignedHeader_spec (b : Nat) (hb : b + 63 < 18446744073709551616) :
    alignedHeader b = (b + 63) / 64 * 64 ∧ b ≤ alignedHeader b ∧ alignedHeader b ≤ b + 63 ∧
      alignedHeader b % 64 = 0 := by
  have e1 : toU64 ((b : Int) + GUARD_EXTRAALIGN - 1) = b + 63 := by
    unfold toU64 GUARD_EXTRAALIGN; omega
  have e2 : toU64 (GUARD_EXTRAALIGN - 1) = 2 ^ 6 - 1 := by
    unfold toU64 GUARD_EXTRAALIGN; decide
  have e3 : alignedHeader b = (b + 63) / 64 * 64 := by
    unfold alignedHeader
    rw [e1, e2, land_notU64_mask (b + 63) 6 hb (by decide)]
    norm_num
  rw [e3]
  refine ⟨rfl, ?_, ?_, ?_⟩ <;> omega

theorem load64_of_bytes (m : Nat → Nat) (a v : Nat) (hv : v < 18446744073709551616)
    (h : ∀ i, i < 8 → m (a + i) = v / 256 ^ i % 256) : load64 m a = v := by
  have h0 := h 0 (by decide)
  have h1 := h 1 (by decide)
  have h2 := h 2 (by decide)
  have h3 := h 3 (by decide)
  have h4 := h 4 (by decide)
  have h5 := h 5 (by decide)
  have h6 := h 6 (by decide)
  have h7 := h 7 (by decide)
  norm_num at h0 h1 h2 h3 h4 h5 h6 h7
  unfold load64
  rw [h0, h1, h2, h3, h4, h5, h6, h7]
  omega

theorem load64_congr (m m1 : Nat → Nat) (a : Nat) (h : ∀ i, i < 8 → m1 (a + i) = m (a + i)) :
    load64 m1 a = load64 m a := by
  have h0 := h 0 (by decide)
  unfold load64
  rw [Nat.add_zero] at h0
  rw [h0, h 1 (by decide), h 2 (by decide), h 3 (by decide), h 4 (by decide), h 5 (by decide),
    h 6 (by decide), h 7 (by decide)]

theorem guardfail_byte (g : GuardWorld) : (guardfail g).byte = g.byte := rfl

theorem guardcheckFrom_ok (g : GuardWorld) (p x : Nat) :
    ∀ (n i : Nat), (∀ j, j < n → g.byte (p + i + j) = x) → guardcheckFrom g p x i n = g
  | 0, _, _ => rfl
  | n + 1, i, h => by
    have h0 : g.byte (p + i) = x := by simpa using h 0 (by omega)
    unfold guardcheckFrom
    rw [if_neg (by simpa using h0)]
    apply guardcheckFrom_ok g p x n (i + 1)
    intro j hj
    have := h (j + 1) (by omega)
    rw [← this]
    congr 1
    omega

theorem guardcheckFrom_bad (g : GuardWorld) (p x : Nat) :
    ∀ (n i : Nat), (∃ j, j < n ∧ g.byte (p + i + j) ≠ x) →
      guardcheckFrom g p x i n = guardfail g
  | 0, _, h => by
    obtain ⟨j, hj, -⟩ := h
    omega
  | n + 1, i, h => by
    unfold guardcheckFrom
    by_cases h0 : g.byte (p + i) ≠ x
    · rw [if_pos h0]
    · rw [if_neg h0]
      apply guardcheckFrom_bad g p x n (i + 1)
      obtain ⟨j, hj, hne⟩ := h
      have hj0 : j ≠ 0 := by
        rintro rfl
        exact h0 (by simpa using hne)
      refine ⟨j - 1, by omega, ?_⟩
      have : p + (i + 1) + (j - 1) = p + i + j := by omega
      rw [this]
      exact hne

/-- A region that holds its fill byte everywhere passes `guardcheck`. -/
theorem guardcheck_ok (g : GuardWorld) (p x s : Nat) (h : ∀ j, j < s → g.byte (p + j) = x) :
    guardcheck g p x s = g :=
  guardcheckFrom_ok g p x s 0 (by simpa using h)

/-- A region with a byte that differs from the fill byte makes `guardcheck`
call `guardfail`. -/
theorem guardcheck_bad (g : GuardWorld) (p x s : Nat) (h : ∃ j, j < s ∧ g.byte (p + j) ≠ x) :
    guardcheck g p x s = guardfail g :=
  guardcheckFrom_bad g p x s 0 (by simpa using h)

/-- Bytes outside a header are not written by `writeHeader`. -/
theorem writeHeader_out (m : Nat → Nat) (h front back pad runaligned : Nat) (size : Int)
    (x : Nat) (hx : x < h ∨ h + 192 ≤ x) :
    writeHeader m h front back pad runaligned size x = m x := by
  unfold writeHeader store64 memset offFront offBack offPad offBase offSize
  split_ifs <;> first | rfl | omega

theorem writeHeader_front (m : Nat → Nat) (h front back pad runaligned : Nat) (size : Int)
    (x : Nat) (hx : h ≤ x ∧ x < h + 64) :
    writeHeader m h front back pad runaligned size x = front := by
  unfold writeHeader store64 memset offFront offBack offPad offBase offSize
  split_ifs <;> first | rfl | omega

theorem writeHeader_back (m : Nat → Nat) (h front back pad runaligned : Nat) (size : Int)
    (x : Nat) (hx : h + 128 ≤ x ∧ x < h + 192) :
    writeHeader m h front back pad runaligned size x = back := by
  unfold writeHeader store64 memset offFront offBack offPad offBase offSize
  split_ifs <;> first | rfl | omega

theorem writeHeader_size (m : Nat → Nat) (h front back pad runaligned : Nat) (size : Int) :
    load64 (writeHeader m h front back pad runaligned size) (h + offSize) = toU64 size := by
  apply load64_of_bytes _ _ _ (toU64_lt size)
  intro i hi
  unfold writeHeader store64 memset offFront offBack offPad offBase offSize
  rw [if_pos (by omega)]
  congr 3
  omega

theorem writeHeader_base (m : Nat → Nat) (h front back pad runaligned : Nat) (size : Int)
    (hb : runaligned < 18446744073709551616) :
    load64 (writeHeader m h front back pad runaligned size) (h + offBase) = runaligned := by
  apply load64_of_bytes _ _ _ hb
  intro i hi
  unfold writeHeader store64 memset offFront offBack offPad offBase offSize
  rw [if_neg (by omega), if_pos (by omega)]
  congr 3
  omega

theorem guardcheck_cases (g : GuardWorld) (p x s : Nat) :
    guardcheck g p x s = g ∨ guardcheck g p x s = guardfail g := by
  by_cases h : ∀ j, j < s → g.byte (p + j) = x
  · exact Or.inl (guardcheck_ok g p x s h)
  · right
    apply guardcheck_bad
    by_contra hno
    apply h
    intro j hj
    by_contra hne
    exact hno ⟨j, hj, hne⟩

theorem guardcheck_byte (g : GuardWorld) (p x s : Nat) : (guardcheck g p x s).byte = g.byte := by
  rcases guardcheck_cases g p x s with h | h <;> rw [h]
  rfl

theorem guardedBytes_eq (size : Int) (hs : 0 ≤ size) (hs63 : size < 9223372036854775808) :
    guardedBytes size = size.toNat + 448 := by
  unfold guardedBytes toU64 sizeofGuardHeader GUARD_EXTRAALIGN
  omega

/-- The guarded `unsafeutility_malloc` spelled out for a size that is a
non-negative `int64_t` and a platform block inside the address space: the
header lies at the rounded address `r`, the user region `192` bytes further,
the footer right after the `size` user bytes. -/
theorem unsafeutility_malloc_eval (g : GuardWorld) (size alignment : Int) (kind : Allocator)
    (base : Nat) (hs : 0 ≤ size) (hs63 : size < 9223372036854775808)
    (hsp : base + guardedBytes size < 18446744073709551616) :
    unsafeutility_malloc g size alignment kind base =
      (alignedHeader base + 192,
        { byte :=
            writeHeader
              (writeHeader (memset g.byte base 188 (size.toNat + 448)) (alignedHeader base)
                241 242 243 base size)
              (alignedHeader base + 192 + size.toNat) 161 162 163 base size
          live := (base, size.toNat + 448) :: g.live
          freed := g.freed
          faults := g.faults }) := by
  have hgb := guardedBytes_eq size hs hs63
  rw [hgb] at hsp
  obtain ⟨-, h1, h2, -⟩ := alignedHeader_spec base (by omega)
  have e1 : toU64 ((alignedHeader base : Int) + sizeofGuardHeader) = alignedHeader base + 192 := by
    unfold toU64 sizeofGuardHeader; omega
  have e2 : toU64 ((alignedHeader base : Int) + sizeofGuardHeader + size) =
      alignedHeader base + 192 + size.toNat := by
    unfold toU64 sizeofGuardHeader; omega
  unfold unsafeutility_malloc
  simp only [e1, e2, hgb]

/-- The guarded `unsafeutility_free` spelled out on a block whose header and
footer fields read `n` and `base`: the alignment test passes, the fields agree,
and the four sentinel checks run before `base` is released. -/
theorem unsafeutility_free_eval (g1 : GuardWorld) (r n base : Nat) (kind : Allocator)
    (hk : kind ≠ Allocator.Temp) (hr : r % 64 = 0)
    (hsp : r + 192 + n + 192 < 18446744073709551616)
    (hsz1 : load64 g1.byte (r + 64) = n) (hsz2 : load64 g1.byte (r + 192 + n + 64) = n)
    (hb1 : load64 g1.byte (r + 72) = base) (hb2 : load64 g1.byte (r + 192 + n + 72) = base) :
    unsafeutility_free g1 (r + 192) kind =
      free (guardcheck (guardcheck (guardcheck (guardcheck g1 r 241 64) (r + 128) 242 64)
        (r + 192 + n) 161 64) (r + 192 + n + 128) 162 64) base := by
  have hp0 : r + 192 ≠ 0 := by omega
  have e63 : toU64 (GUARD_EXTRAALIGN - 1) = 2 ^ 6 - 1 := by
    unfold toU64 GUARD_EXTRAALIGN; decide
  have hal : ¬ ((r + 192) &&& toU64 (GUARD_EXTRAALIGN - 1) ≠ 0) := by
    rw [e63, Nat.and_pow_two_sub_one_eq_mod]
    norm_num
    omega
  have er : toU64 (((r + 192 : Nat) : Int) - sizeofGuardHeader) = r := by
    unfold toU64 sizeofGuardHeader; omega
  unfold unsafeutility_free
  rw [if_neg hp0, if_neg hk]
  simp only [if_neg hal, er, offSize, offBase, offFront, offBack, Nat.add_zero, hsz1, hb1]
  have eh : toU64 ((r : Int) + sizeofGuardHeader + (n : Int)) = r + 192 + n := by
    unfold toU64 sizeofGuardHeader; omega
  simp only [eh, hsz2, hb2, ne_eq, not_true_eq_false, or_self, if_false, guardcheck_byte, hb1]

/-- The memory after the header at `r` and the footer at `r + 192 + n` have
been written, the footer last: the four sentinel regions hold their fill
bytes and both copies of `size` and `unalignedbase` read back. -/
theorem two_headers (m0 : Nat → Nat) (r n base : Nat) (size : Int) (hn : toU64 size = n)
    (hb : base < 18446744073709551616) :
    (∀ x, r ≤ x ∧ x < r + 64 →
      writeHeader (writeHeader m0 r 241 242 243 base size) (r + 192 + n) 161 162 163 base size x
        = 241) ∧
    (∀ x, r + 128 ≤ x ∧ x < r + 192 →
      writeHeader (writeHeader m0 r 241 242 243 base size) (r + 192 + n) 161 162 163 base size x
        = 242) ∧
    (∀ x, r + 192 + n ≤ x ∧ x < r + 192 + n + 64 →
      writeHeader (writeHeader m0 r 241 242 243 base size) (r + 192 + n) 161 162 163 base size x
        = 161) ∧
    (∀ x, r + 192 + n + 128 ≤ x ∧ x < r + 192 + n + 192 →
      writeHeader (writeHeader m0 r 241 242 243 base size) (r + 192 + n) 161 162 163 base size x
        = 162) ∧
    load64 (writeHeader (writeHeader m0 r 241 242 243 base size) (r + 192 + n) 161 162 163
      base size) (r + 64) = n ∧
    load64 (writeHeader (writeHeader m0 r 241 242 243 base size) (r + 192 + n) 161 162 163
      base size) (r + 72) = base ∧
    load64 (writeHeader (writeHeader m0 r 241 242 243 base size) (r + 192 + n) 161 162 163
      base size) (r + 192 + n + 64) = n ∧
    load64 (writeHeader (writeHeader m0 r 241 242 243 base size) (r + 192 + n) 161 162 163
      base size) (r + 192 + n + 72) = base := by
  refine ⟨?_, ?_, ?_, ?_, ?_, ?_, ?_, ?_⟩
  · intro x hx
    rw [writeHeader_out _ _ _ _ _ _ _ x (by omega)]
    exact writeHeader_front _ _ _ _ _ _ _ x hx
  · intro x hx
    rw [writeHeader_out _ _ _ _ _ _ _ x (by omega)]
    exact writeHeader_back _ _ _ _ _ _ _ x hx
  · intro x hx
    exact writeHeader_front _ _ _ _ _ _ _ x hx
  · intro x hx
    exact writeHeader_back _ _ _ _ _ _ _ x (by omega)
  · rw [load64_congr (writeHeader m0 r 241 242 243 base size) _ (r + 64)
      (fun i hi => writeHeader_out _ _ _ _ _ _ _ _ (by omega))]
    rw [← hn]
    exact writeHeader_size _ _ _ _ _ _ _
  · rw [load64_congr (writeHeader m0 r 241 242 243 base size) _ (r + 72)
      (fun i hi => writeHeader_out _ _ _ _ _ _ _ _ (by omega))]
    exact writeHeader_base _ _ _ _ _ _ _ hb
  · rw [← hn]
    exact writeHeader_size _ _ _ _ _ _ _
  · exact writeHeader_base _ _ _ _ _ _ _ hb

end GuardHeap

theorem alloc_eq_afterGrowth (w : World) (size alignment : Int) (base : Nat) :
    alloc w size alignment base =
      (alignPtr (afterGrowth w size alignment base).arena.mCurPtr alignment,
        { afterGrowth w size alignment base with arena :=
          { (afterGrowth w size alignment base).arena with
            mChunkLeft := toU64 (((afterGrowth w size alignment base).arena.mChunkLeft : Int) -
              (((alignPtr (afterGrowth w size alignment base).arena.mCurPtr alignment : Nat) : Int)
                - (afterGrowth w size alignment base).arena.mCurPtr + size))
            mCurPtr := toU64
              (((alignPtr (afterGrowth w size alignment base).arena.mCurPtr alignment : Nat) : Int)
                + size) } }) := rfl

/-- The mask expression of `alloc` with a power-of-two alignment, when the
addition stays inside the address space: the least multiple of the alignment
at or after the cursor. -/
theorem alignPtr_pow_least (cur k : Nat) (hk : k < 64)
    (hcur : cur + (2 ^ k - 1) < 18446744073709551616) :
    alignPtr cur ((2:Int) ^ k) % 2 ^ k = 0 ∧ cur ≤ alignPtr cur ((2:Int) ^ k) ∧
      alignPtr cur ((2:Int) ^ k) < cur + 2 ^ k ∧
      ∀ m, cur ≤ m → m % 2 ^ k = 0 → alignPtr cur ((2:Int) ^ k) ≤ m := by
  have hpos : 0 < 2 ^ k := Nat.pow_pos (by decide)
  rw [alignPtr_pow cur k hk, Nat.mod_eq_of_lt hcur]
  have h1 := Nat.div_add_mod (cur + (2 ^ k - 1)) (2 ^ k)
  have h2 := Nat.mod_lt (cur + (2 ^ k - 1)) hpos
  rw [Nat.mul_comm] at h1
  refine ⟨Nat.mul_mod_left _ _, ?_, ?_, ?_⟩
  · generalize (cur + (2 ^ k - 1)) / 2 ^ k * 2 ^ k = q at h1 ⊢
    generalize (cur + (2 ^ k - 1)) % 2 ^ k = r at h1 h2
    generalize 2 ^ k = a at *
    omega
  · generalize (cur + (2 ^ k - 1)) / 2 ^ k * 2 ^ k = q at h1 ⊢
    generalize (cur + (2 ^ k - 1)) % 2 ^ k = r at h1 h2
    generalize 2 ^ k = a at *
    omega
  · intro m hm hmod
    obtain ⟨j, hj⟩ : 2 ^ k ∣ m := Nat.dvd_of_mod_eq_zero hmod
    have hlt : (cur + (2 ^ k - 1)) / 2 ^ k * 2 ^ k < (j + 1) * 2 ^ k := by
      have : (j + 1) * 2 ^ k = 2 ^ k * j + 2 ^ k := by ring
      rw [this, ← hj]
      generalize (cur + (2 ^ k - 1)) / 2 ^ k * 2 ^ k = q at h1 ⊢
      generalize (cur + (2 ^ k - 1)) % 2 ^ k = r at h1 h2
      generalize 2 ^ k = a at *
      omega
    have hle : (cur + (2 ^ k - 1)) / 2 ^ k ≤ j :=
      Nat.lt_succ_iff.1 (Nat.lt_of_mul_lt_mul_right hlt)
    rw [hj, Nat.mul_comm (2 ^ k) j]
    exact Nat.mul_le_mul_right _ hle

/-- After the growth test of `alloc`, the remaining count covers the request
with its worst-case padding. -/
theorem afterGrowth_room (w : World) (size alignment : Int) (base : Nat)
    (hs : 0 ≤ size) (hs31 : size < 2147483648) (ha : AlignOk alignment)
    (hN : w.arena.mChunkSize < 18446744073709551616) :
    size + alignment ≤ ((afterGrowth w size alignment base).arena.mChunkLeft : Int) := by
  have har := ha.range
  have hge := toU64_toI32_ge (size + alignment) (by omega) (by omega)
  unfold afterGrowth
  by_cases h : w.arena.mChunkLeft < toU64 (toI32 (size + alignment))
  · rw [if_pos h]
    have h1 := chunkBytes_ge_need w.arena (size + alignment) (by omega) (by omega)
    have h2 := chunkBytes_lt w.arena (toI32 (size + alignment)) hN
    show size + alignment ≤
      ((toU64 ((chunkBytes w.arena (toI32 (size + alignment)) : Int) - 8) : Nat) : Int)
    unfold toU64
    omega
  · rw [if_neg h]
    omega

theorem AlignOk.exponent {k : Nat} (h : AlignOk ((2:Int) ^ k)) : k < 31 := by
  by_contra hk
  have h1 : (2:Int) ^ 31 ≤ 2 ^ k := pow_le_pow_right₀ (by norm_num) (by omega)
  have h2 := h.range.2
  norm_num at h1
  omega

/-- The step of `alloc` keeps cursor + remaining at its value after the growth
test. -/
theorem alloc_sum (w : World) (size alignment : Int) (base : Nat)
    (hs : 0 ≤ size) (hs31 : size < 2147483648) (ha : AlignOk alignment)
    (hN : w.arena.mChunkSize < 18446744073709551616)
    (hsp : (afterGrowth w size alignment base).arena.mCurPtr +
      (afterGrowth w size alignment base).arena.mChunkLeft < 18446744073709551616) :
    (alloc w size alignment base).2.arena.mCurPtr +
        (alloc w size alignment base).2.arena.mChunkLeft =
      (afterGrowth w size alignment base).arena.mCurPtr +
        (afterGrowth w size alignment base).arena.mChunkLeft := by
  have har := ha.range
  have hroom := afterGrowth_room w size alignment base hs hs31 ha hN
  rw [alloc_eq_afterGrowth]
  simp only
  generalize (afterGrowth w size alignment base).arena.mCurPtr = c at *
  generalize (afterGrowth w size alignment base).arena.mChunkLeft = L at *
  have hbd := alignPtr_bounds c alignment ha (by omega)
  generalize alignPtr c alignment = p at *
  unfold toU64
  omega

theorem Exact.mono {p q : Prop} {w : World} {cs : List (Nat × Nat)} (h : Exact p w cs)
    (hpq : p → q) : Exact q w cs := by
  cases cs with
  | nil => trivial
  | cons c rest =>
    rcases h with h | ⟨hp, h1, h2⟩
    · exact Or.inl h
    · exact Or.inr ⟨hpq hp, h1, h2⟩

/-- One admissible `alloc` keeps the relation of the remaining count to the
cursor. -/
theorem alloc_exact_step {w : World} {cs : List (Nat × Nat)} {size alignment : Int}
    {base : Nat} {rst : Prop} (hinv : Inv w cs) (hex : Exact rst w cs)
    (hok : AllocOk w size alignment base) :
    ∃ cs1, Inv (alloc w size alignment base).2 cs1 ∧ Exact rst (alloc w size alignment base).2 cs1 := by
  obtain ⟨hs0, hs1, ha, hm⟩ := hok
  have hcfg := hinv.config
  by_cases h : w.arena.mChunkLeft < toU64 (toI32 (size + alignment))
  · obtain ⟨hi, -, -⟩ := alloc_grow_step hinv ⟨hs0, hs1, ha, hm⟩ h
    obtain ⟨hb0, hb1, -⟩ := hm h
    have hsz1 := chunkBytes_ge_config w.arena (toI32 (size + alignment))
    have hag : afterGrowth w size alignment base = newChunk w (toI32 (size + alignment)) base := by
      unfold afterGrowth; rw [if_pos h]
    have hc : (afterGrowth w size alignment base).arena.mCurPtr = base + 8 := by
      rw [hag]; show toU64 ((base : Int) + 8) = base + 8
      unfold toU64; omega
    have hL : (afterGrowth w size alignment base).arena.mChunkLeft =
        chunkBytes w.arena (toI32 (size + alignment)) - 8 := by
      rw [hag]
      show toU64 ((chunkBytes w.arena (toI32 (size + alignment)) : Int) - 8) = _
      unfold toU64; omega
    have hsum := alloc_sum w size alignment base hs0 hs1 ha hcfg.2 (by rw [hc, hL]; omega)
    rw [hc, hL] at hsum
    refine ⟨_, hi, Or.inl ?_⟩
    simp only
    omega
  · obtain ⟨hi, -, -, -⟩ := alloc_fit_step hinv ⟨hs0, hs1, ha, hm⟩ h
    refine ⟨cs, hi, ?_⟩
    cases cs with
    | nil => trivial
    | cons c rest =>
      have hcur := hinv.cursor
      simp only at hcur
      have hblk := (hinv.block c (List.mem_cons_self _ _)).2.2
      have hag : afterGrowth w size alignment base = w := by
        unfold afterGrowth; rw [if_neg h]
      have hsum := alloc_sum w size alignment base hs0 hs1 ha hcfg.2 (by rw [hag]; omega)
      rw [hag] at hsum
      have hsz := alloc_chunkSize w size alignment base
      rcases hex with hex | ⟨hp, h1, h2⟩
      · exact Or.inl (hsum.trans hex)
      · exact Or.inr ⟨hp, by rw [hsum, hsz]; exact h1, by rw [hsz]; exact h2⟩

/-- An admissible sequence of calls runs to the end and keeps the invariant
and the relation of the remaining count to the cursor; the loose case of the
relation needs a `reset` among the calls. -/
theorem run_exact : ∀ (ops : List Op) (s : Session) (cs : List (Nat × Nat)) (rst : Prop),
    Inv s.world cs → Exact rst s.world cs → TraceOk s ops →
    ∃ s1 cs1, s.run ops = some s1 ∧ Inv s1.world cs1 ∧
      Exact (rst ∨ Op.reset ∈ ops) s1.world cs1
  | [], s, cs, rst, hinv, hex, _ => ⟨s, cs, rfl, hinv, hex.mono Or.inl⟩
  | Op.alloc size alignment base :: ops, s, cs, rst, hinv, hex, htr => by
    obtain ⟨hok, hrest⟩ := htr
    obtain ⟨cs1, hi1, he1⟩ := alloc_exact_step hinv hex hok
    have hstep : s.step (Op.alloc size alignment base) =
        some { world := (alloc s.world size alignment base).2,
               issued := ((alloc s.world size alignment base).1, size.toNat) :: s.issued } := rfl
    rw [hstep] at hrest
    obtain ⟨s2, cs2, hrun, hi2, he2⟩ := run_exact ops _ cs1 rst hi1 he1 hrest
    refine ⟨s2, cs2, ?_, hi2, he2.mono ?_⟩
    · simp only [Session.run, hstep, hrun]
    · rintro (h | h)
      · exact Or.inl h
      · exact Or.inr (List.mem_cons_of_mem _ h)
  | Op.reset :: ops, s, cs, rst, hinv, hex, htr => by
    obtain ⟨-, hrest⟩ := htr
    obtain ⟨s1, hstep, hi1, -, -, hsz1, hcl⟩ := reset_session_step hinv
    rw [hstep] at hrest
    have he1 : Exact True s1.world cs.getLast?.toList := by
      cases hgl : cs.getLast? with
      | none => trivial
      | some cl =>
        obtain ⟨-, h2, h3⟩ := hcl cl hgl
        have hold := hinv.oldest cl hgl
        have hcfg := hinv.config
        refine Or.inr ⟨trivial, ?_, ?_⟩
        · rw [h2, h3, hsz1]; omega
        · rw [hsz1]; exact hold
    obtain ⟨s2, cs2, hrun, hi2, he2⟩ := run_exact ops s1 _ True hi1 he1 hrest
    refine ⟨s2, cs2, ?_, hi2, he2.mono (fun _ => Or.inr (List.mem_cons_self _ _))⟩
    simp only [Session.run, hstep, hrun]

/-- With `destinationStride == sourceStride == elementSize`, for every
`count >= 0` and `elementSize >= 0` whose product is a byte count (below
`2^64`), `unsafeutility_memcpystride` returns without entering its loop and
leaves the memory of one flat copy of `count * elementSize` bytes; and for
`count` up to `INT_MAX` and buffers that lie in the address space and do not
overlap, the per-element loop run on the same arguments returns the same
memory, byte for byte. -/
theorem memcpystride_equal_strides (m : Nat → Nat) (dst src : Nat)
    (elementSize count : Int) (fuel : Nat)
    (hes : 0 ≤ elementSize) (hes31 : elementSize < 2147483648)
    (hc : 0 ≤ count) (hc63 : count < 9223372036854775808)
    (hbytes : count * elementSize < 18446744073709551616) :
    unsafeutility_memcpystride fuel m dst elementSize src elementSize elementSize count =
        some (memcpy m dst src (count * elementSize).toNat) ∧
      (count < 2147483648 →
        dst + (count * elementSize).toNat < 18446744073709551616 →
        src + (count * elementSize).toNat < 18446744073709551616 →
        (dst + (count * elementSize).toNat ≤ src ∨ src + (count * elementSize).toNat ≤ dst) →
        ∀ fuel2, count.toNat < fuel2 →
          ∃ m1, memcpystrideLoop elementSize elementSize elementSize count fuel2 0 dst src m =
              some m1 ∧
            ∀ a, m1 a = memcpy m dst src (count * elementSize).toNat a) := by
  obtain ⟨c, rfl⟩ := Int.eq_ofNat_of_zero_le hc
  obtain ⟨e, rfl⟩ := Int.eq_ofNat_of_zero_le hes
  have hprod : ((c : Int) * (e : Int)).toNat = c * e := by
    rw [← Nat.cast_mul, Int.toNat_natCast]
  have hb : c * e < 18446744073709551616 := by
    have : ((c * e : Nat) : Int) < 18446744073709551616 := by push_cast; exact hbytes
    exact_mod_cast this
  rw [hprod]
  constructor
  · unfold unsafeutility_memcpystride
    rw [if_pos ⟨rfl, rfl⟩]
    have e1 : toU64 (c : Int) = c := by unfold toU64; omega
    have e2 : toU64 (e : Int) = e := by unfold toU64; omega
    rw [e1, e2, Nat.mod_eq_of_lt hb]
  · intro hc31 hd hs hdisj fuel2 hf
    have hrun := memcpystrideLoop_run m dst e src e e c (by omega) (by omega) hd hs c 0 fuel2
      (by omega) (by simpa using hf)
    simp only [Nat.zero_mul, Nat.add_zero, Nat.cast_zero] at hrun
    exact ⟨_, hrun, fun a => copyElems_flat m dst src e c hdisj a⟩

/-! ## Specification properties -/

/-- C1: for every arena state, every `size` and every power of two `a`, the
address `alloc(size, a)` returns is a multiple of `a`, whether or not the call
grew a chunk and whatever address `base` the platform returned for it. -/
theorem C1_alloc_result_aligned (w : World) (size : Int) (k base : Nat) :
    (alloc w size ((2:Int) ^ k) base).1 % 2 ^ k = 0 := by
  unfold alloc
  exact alignPtr_pow_mod _ k

/-- C2: an arena built with the default chunk size, after any admissible
sequence of `alloc` and `reset` calls (the platform serving every growth):
whenever a chunk is current the cursor lies between chunk start + 8 and the end
of the chunk as allocated, and an `alloc` of a positive size returns a
region inside the chunk current after the call, past its link word and within
the size the chunk was allocated with, leaves the cursor in that interval, and
the region meets none of the regions returned since the last `reset`. -/
theorem C2_alloc_region_inside_chunk (word : Nat → Nat) (live : List (Nat × Nat))
    (ops : List Op) (size alignment : Int) (base : Nat)
    (htr : TraceOk (Session.fresh defaultChunkSize word live)
      (ops ++ [Op.alloc size alignment base]))
    (hpos : 0 < size) :
    ∃ s, (Session.fresh defaultChunkSize word live).run ops = some s ∧
      (s.world.arena.mCurChunk ≠ 0 →
        ∃ sz, (s.world.arena.mCurChunk, sz) ∈ s.world.live ∧
          s.world.arena.mCurChunk + 8 ≤ s.world.arena.mCurPtr ∧
          s.world.arena.mCurPtr ≤ s.world.arena.mCurChunk + sz) ∧
      ∃ sz, ((alloc s.world size alignment base).2.arena.mCurChunk, sz) ∈
            (alloc s.world size alignment base).2.live ∧
        (alloc s.world size alignment base).2.arena.mCurChunk + 8 ≤
          (alloc s.world size alignment base).1 ∧
        (alloc s.world size alignment base).1 + size.toNat ≤
          (alloc s.world size alignment base).2.arena.mCurChunk + sz ∧
        (alloc s.world size alignment base).2.arena.mCurChunk + 8 ≤
          (alloc s.world size alignment base).2.arena.mCurPtr ∧
        (alloc s.world size alignment base).2.arena.mCurPtr ≤
          (alloc s.world size alignment base).2.arena.mCurChunk + sz ∧
        ∀ q ∈ s.issued,
          RangesDisjoint (alloc s.world size alignment base).1 size.toNat q.1 q.2 := by
  obtain ⟨h1, h2⟩ := traceOk_append ops _ _ htr
  have hfresh := fresh_inv defaultChunkSize word live (by decide) (by decide)
  obtain ⟨s, cs, hrun, hinv, hiss, -, -⟩ :=
    run_inv ops (Session.fresh defaultChunkSize word live) [] hfresh
      (fun r hr => by cases hr) h1
  exact ⟨s, hrun, hinv.cursor_in_chunk, alloc_region hinv hiss (h2 s hrun) hpos⟩

/-- C2 at a concrete session: two allocations, a `reset`, a third allocation,
and then the allocation the statement is about. -/
theorem C2_alloc_region_inside_chunk_witness :
    TraceOk (Session.fresh defaultChunkSize (fun _ => 0) [])
      ([Op.alloc 16000 0 131072, Op.alloc 384 16 65536, Op.reset, Op.alloc 100 8 4096] ++
        [Op.alloc 24 16 4096]) ∧
    (0 : Int) < 24 ∧
    ∃ s, (Session.fresh defaultChunkSize (fun _ => 0) []).run
        [Op.alloc 16000 0 131072, Op.alloc 384 16 65536, Op.reset, Op.alloc 100 8 4096] = some s ∧
      (s.world.arena.mCurChunk ≠ 0 →
        ∃ sz, (s.world.arena.mCurChunk, sz) ∈ s.world.live ∧
          s.world.arena.mCurChunk + 8 ≤ s.world.arena.mCurPtr ∧
          s.world.arena.mCurPtr ≤ s.world.arena.mCurChunk + sz) ∧
      ∃ sz, ((alloc s.world 24 16 4096).2.arena.mCurChunk, sz) ∈
            (alloc s.world 24 16 4096).2.live ∧
        (alloc s.world 24 16 4096).2.arena.mCurChunk + 8 ≤ (alloc s.world 24 16 4096).1 ∧
        (alloc s.world 24 16 4096).1 + (24 : Int).toNat ≤
          (alloc s.world 24 16 4096).2.arena.mCurChunk + sz ∧
        (alloc s.world 24 16 4096).2.arena.mCurChunk + 8 ≤
          (alloc s.world 24 16 4096).2.arena.mCurPtr ∧
        (alloc s.world 24 16 4096).2.arena.mCurPtr ≤
          (alloc s.world 24 16 4096).2.arena.mCurChunk + sz ∧
        ∀ q ∈ s.issued, RangesDisjoint (alloc s.world 24 16 4096).1 (24 : Int).toNat q.1 q.2 :=
  ⟨by decide, by decide,
    C2_alloc_region_inside_chunk (fun _ => 0) []
      [Op.alloc 16000 0 131072, Op.alloc 384 16 65536, Op.reset, Op.alloc 100 8 4096]
      24 16 4096 (by decide) (by decide)⟩

/-- C3 (as amended): on a fresh arena with configured chunk size `chunkSize`, a
sequence of `alloc` calls with positive sizes and admissible alignments whose
total demand `size + alignment`, plus the 8 bytes of the link word, is at most
`chunkSize` is served from the first chunk alone, and every returned region
starts at or after the end of every region returned before it. -/
theorem C3_single_chunk_regions_ordered (chunkSize : Int) (word : Nat → Nat)
    (live : List (Nat × Nat)) (reqs : List (Int × Int × Nat))
    (hN : chunkSize < 2147483648)
    (hargs : ∀ r ∈ reqs, 0 < r.1 ∧ AlignOk r.2.1)
    (hplat : ∀ r ∈ reqs.head?, MallocOk (World.fresh chunkSize word live)
      (chunkBytes (BumpAllocator.new chunkSize) (toI32 (r.1 + r.2.1))) r.2.2)
    (hsum : (reqs.map (fun r => r.1 + r.2.1)).sum + 8 ≤ chunkSize) :
    ∃ s, (Session.fresh chunkSize word live).run (allocCalls reqs) = some s ∧
      s.issued.length = reqs.length ∧ s.issued.Pairwise After ∧
      s.world.live.length ≤ live.length + 1 := by
  cases reqs with
  | nil => exact ⟨_, rfl, rfl, List.Pairwise.nil, Nat.le_succ _⟩
  | cons r rest =>
    obtain ⟨size, alignment, base⟩ := r
    obtain ⟨hs0, ha⟩ := hargs (size, alignment, base) (List.mem_cons_self _ _)
    simp only at hs0 ha
    have har := ha.range
    have hrest : ∀ r ∈ rest, 0 ≤ r.1 + r.2.1 := fun r hr => by
      obtain ⟨h1, h2⟩ := hargs r (List.mem_cons_of_mem _ hr)
      have := h2.range
      omega
    have hnn : 0 ≤ (rest.map (fun r => r.1 + r.2.1)).sum :=
      List.sum_nonneg (fun x hx => by
        obtain ⟨r, hr, rfl⟩ := List.mem_map.1 hx
        exact hrest r hr)
    simp only [List.map_cons, List.sum_cons] at hsum
    have hle : ∀ r ∈ rest, r.1 + r.2.1 ≤ (rest.map (fun r => r.1 + r.2.1)).sum := fun r hr =>
      List.single_le_sum (fun x hx => by
        obtain ⟨r, hr, rfl⟩ := List.mem_map.1 hx
        exact hrest r hr) _ (List.mem_map.2 ⟨r, hr, rfl⟩)
    have hm := hplat (size, alignment, base) rfl
    simp only at hm
    obtain ⟨-, hm1, -⟩ := hm
    have hcfg : toU64 chunkSize = chunkSize.toNat := by unfold toU64; omega
    have hsz1 := chunkBytes_ge_config (BumpAllocator.new chunkSize) (toI32 (size + alignment))
    have hsz2 := chunkBytes_ge_need (BumpAllocator.new chunkSize) (size + alignment)
      (by omega) (by omega)
    have hsm := toU64_toI32_small (size + alignment) (by omega) (by omega)
    have hgrow : (World.fresh chunkSize word live).arena.mChunkLeft <
        toU64 (toI32 (size + alignment)) := by
      show 0 < toU64 (toI32 (size + alignment))
      omega
    have hstep : (Session.fresh chunkSize word live).step (Op.alloc size alignment base) =
        some { world := (alloc (World.fresh chunkSize word live) size alignment base).2,
               issued := ((alloc (World.fresh chunkSize word live) size alignment base).1,
                 size.toNat) :: [] } := rfl
    rw [alloc_grow _ size alignment base hgrow] at hstep
    simp only at hstep
    have harena : (World.fresh chunkSize word live).arena = BumpAllocator.new chunkSize := rfl
    have hN2 : (BumpAllocator.new chunkSize).mChunkSize = chunkSize.toNat := hcfg
    rw [harena] at hstep
    rw [hN2] at hsz1
    generalize chunkBytes (BumpAllocator.new chunkSize) (toI32 (size + alignment)) = sz at *
    have e0 : toU64 ((base : Int) + 8) = base + 8 := by unfold toU64; omega
    have e3 : toU64 ((sz : Int) - 8) = sz - 8 := by unfold toU64; omega
    rw [e0, e3] at hstep
    have hbd := alignPtr_bounds (base + 8) alignment ha (by push_cast; omega)
    generalize alignPtr (base + 8) alignment = p at hbd hstep
    obtain ⟨hp1, hp2⟩ := hbd
    push_cast at hp2
    have e1 : toU64 ((p : Int) + size) = p + size.toNat := by
      unfold toU64; omega
    have e2 : (toU64 (((sz - 8 : Nat) : Int) - ((p : Int) - ((base + 8 : Nat) : Int) + size)) : Int) =
        ((sz : Int) - 8) - ((p : Int) - (base + 8) + size) := by
      unfold toU64; omega
    obtain ⟨s1, hrun, hpw1, hlive, -, hlen⟩ := fit_run rest
      { world :=
          { arena :=
              { mChunkSize := (BumpAllocator.new chunkSize).mChunkSize
                mChunkLeft := toU64 (((sz - 8 : Nat) : Int) -
                  ((p : Int) - ((base + 8 : Nat) : Int) + size))
                mCurChunk := base
                mCurPtr := toU64 ((p : Int) + size) }
            word := fun x =>
              if x = base then (BumpAllocator.new chunkSize).mCurChunk
              else (World.fresh chunkSize word live).word x
            live := (base, sz) :: (World.fresh chunkSize word live).live
            freed := (World.fresh chunkSize word live).freed }
        issued := [(p, size.toNat)] }
      (by simp only; rw [e1]; omega)
      (fun r hr => by
        obtain ⟨h1, h2⟩ := hargs r (List.mem_cons_of_mem _ hr)
        have := hle r hr
        exact ⟨by omega, h2, by omega⟩)
      (by simp only; omega)
      (by
        intro q hq
        simp only [List.mem_singleton] at hq
        subst hq
        simp only
        rw [e1])
      (List.pairwise_singleton _ _)
    refine ⟨s1, ?_, ?_, hpw1, ?_⟩
    · simp only [allocCalls, List.map_cons, Session.run, hstep]
      exact hrun
    · rw [hlen]
      simp only [List.length_cons, List.length_nil]
      omega
    · rw [hlive]
      simp [World.fresh]

/-- C3 (as amended) at three requests on an arena of 16384 bytes per chunk. -/
theorem C3_single_chunk_regions_ordered_witness :
    (16384 : Int) < 2147483648 ∧
    ((([(100, 16, 65536), (200, 0, 0), (32, 64, 0)] : List (Int × Int × Nat)).map
      (fun r => r.1 + r.2.1)).sum + 8 ≤ (16384 : Int)) ∧
    ∃ s, (Session.fresh 16384 (fun _ => 0) []).run
        (allocCalls [(100, 16, 65536), (200, 0, 0), (32, 64, 0)]) = some s ∧
      s.issued.length = ([(100, 16, 65536), (200, 0, 0), (32, 64, 0)] :
        List (Int × Int × Nat)).length ∧
      s.issued.Pairwise After ∧ s.world.live.length ≤ ([] : List (Nat × Nat)).length + 1 :=
  ⟨by decide, by decide,
    C3_single_chunk_regions_ordered 16384 (fun _ => 0) []
      [(100, 16, 65536), (200, 0, 0), (32, 64, 0)] (by decide) (by decide) (by decide)
      (by decide)⟩

/-- C3 as stated fails: two requests of 16000 and 384 bytes sum to the default
chunk size 16384, yet the second does not fit after the first behind the link
word, a second chunk is grown, and the platform may place it below the first:
the second pointer is lower than the end of the first region. -/
theorem C3_counterexample :
    TraceOk (Session.fresh defaultChunkSize (fun _ => 0) [])
      (allocCalls [(16000, 0, 131072), (384, 0, 65536)]) ∧
    ((([(16000, 0, 131072), (384, 0, 65536)] : List (Int × Int × Nat)).map
      (fun r => r.1)).sum ≤ defaultChunkSize) ∧
    ((Session.fresh defaultChunkSize (fun _ => 0) []).run
      (allocCalls [(16000, 0, 131072), (384, 0, 65536)])).map (fun s => s.issued) =
        some [(65544, 384), (131080, 16000)] ∧
    ¬ After (65544, 384) (131080, 16000) := by
  refine ⟨by decide, by decide, by decide, by decide⟩

/-- C4 (as amended): on a fresh arena with configured chunk size `chunkSize`,
if the first allocation `alloc(size, alignment)` has `size + alignment + 8` at
most `chunkSize`, then after any admissible sequence of further calls followed
by `reset()`, `alloc(size, alignment)` returns the address the first
allocation returned, whatever the platform would answer. -/
theorem C4_same_address_after_reset (chunkSize : Int) (word : Nat → Nat)
    (live : List (Nat × Nat)) (size alignment : Int) (base : Nat) (ops : List Op) (base2 : Nat)
    (hN : chunkSize < 2147483648) (hpos : 0 < size)
    (hfit : size + alignment + 8 ≤ chunkSize)
    (htr : TraceOk (Session.fresh chunkSize word live)
      (Op.alloc size alignment base :: (ops ++ [Op.reset]))) :
    ∃ s, (Session.fresh chunkSize word live).run
        (Op.alloc size alignment base :: (ops ++ [Op.reset])) = some s ∧
      (alloc s.world size alignment base2).1 =
        (alloc (World.fresh chunkSize word live) size alignment base).1 := by
  obtain ⟨hok, hrest⟩ := htr
  have ha := hok.2.2.1
  have har := ha.range
  have hfresh := fresh_inv chunkSize word live (by omega) hN
  have hsm := toU64_toI32_small (size + alignment) (by omega) (by omega)
  have hgrow : (Session.fresh chunkSize word live).world.arena.mChunkLeft <
      toU64 (toI32 (size + alignment)) := by
    show 0 < toU64 (toI32 (size + alignment))
    omega
  obtain ⟨hb0, hb1, -⟩ := hok.2.2.2 hgrow
  have hsz1 := chunkBytes_ge_config (Session.fresh chunkSize word live).world.arena
    (toI32 (size + alignment))
  have hcfg : (Session.fresh chunkSize word live).world.arena.mChunkSize = chunkSize.toNat := by
    show toU64 chunkSize = chunkSize.toNat
    unfold toU64; omega
  obtain ⟨hi1, -, -⟩ := alloc_grow_step hfresh hok hgrow
  have hiss0 : IssuedIn (Session.fresh chunkSize word live) [] := fun r hr => by cases hr
  obtain ⟨s1, cs1, hstep, hinv1, hiss1, hcs1⟩ := alloc_session_step hfresh hiss0 hok
  have hs1 : s1 = { world := (alloc (World.fresh chunkSize word live) size alignment base).2,
                    issued := [((alloc (World.fresh chunkSize word live) size alignment base).1,
                      size.toNat)] } := by
    have : (Session.fresh chunkSize word live).step (Op.alloc size alignment base) =
      some { world := (alloc (World.fresh chunkSize word live) size alignment base).2,
             issued := [((alloc (World.fresh chunkSize word live) size alignment base).1,
               size.toNat)] } := rfl
    rw [this] at hstep
    exact (Option.some.inj hstep).symm
  rw [hstep] at hrest
  obtain ⟨htr2, -⟩ := traceOk_append ops s1 Op.reset hrest
  have hiss1' : IssuedIn s1 [(base, chunkBytes (Session.fresh chunkSize word live).world.arena
      (toI32 (size + alignment)))] := by
    intro r hr
    rw [hs1] at hr
    simp only [List.mem_singleton] at hr
    subst hr
    right; left
    have hc := alloc_grow_step hfresh hok hgrow
    refine ⟨_, rfl, ?_, ?_⟩
    · simpa using hc.2.1
    · rw [hs1]; simp only; rw [hc.2.2]
  have hinv1' : Inv s1.world [(base, chunkBytes (Session.fresh chunkSize word live).world.arena
      (toI32 (size + alignment)))] := by
    rw [hs1]; exact hi1
  obtain ⟨s2, cs2, hrun2, hinv2, -, hsz2, hl2⟩ := run_inv ops s1 _ hinv1' hiss1' htr2
  obtain ⟨s3, hstep3, -, -, -, hsz3, hcl3⟩ := reset_session_step hinv2
  obtain ⟨hchunk, hcur, hleft⟩ := hcl3 (base, _) (hl2 _ rfl)
  have hsize1 : s1.world.arena.mChunkSize = chunkSize.toNat := by
    rw [hs1]; simp only; rw [alloc_chunkSize]; exact hcfg
  refine ⟨s3, ?_, ?_⟩
  · simp only [Session.run, hstep]
    exact run_snoc ops s1 s2 s3 Op.reset hrun2 hstep3
  · have hnofit : ¬ s3.world.arena.mChunkLeft < toU64 (toI32 (size + alignment)) := by
      rw [hleft, hsz2, hsize1]
      omega
    rw [alloc_fit s3.world size alignment base2 hnofit,
      alloc_grow (World.fresh chunkSize word live) size alignment base hgrow]
    simp only
    rw [hcur]
    have e0 : toU64 ((base : Int) + 8) = base + 8 := by unfold toU64; omega
    rw [e0]

/-- C4 (as amended) at a first request of 100 bytes aligned to 16, two further
requests, one of them growing a second chunk, and a `reset`. -/
theorem C4_same_address_after_reset_witness :
    TraceOk (Session.fresh 16384 (fun _ => 0) [])
      (Op.alloc 100 16 65536 ::
        ([Op.alloc 50 8 0, Op.alloc 20000 0 262144] ++ [Op.reset])) ∧
    ∃ s, (Session.fresh 16384 (fun _ => 0) []).run
        (Op.alloc 100 16 65536 ::
          ([Op.alloc 50 8 0, Op.alloc 20000 0 262144] ++ [Op.reset])) = some s ∧
      (alloc s.world 100 16 7).1 = (alloc (World.fresh 16384 (fun _ => 0) []) 100 16 65536).1 :=
  ⟨by decide,
    C4_same_address_after_reset 16384 (fun _ => 0) [] 100 16 65536
      [Op.alloc 50 8 0, Op.alloc 20000 0 262144] 7 (by decide) (by decide) (by decide)
      (by decide)⟩

/-- C4 as stated fails: a first allocation of 20000 bytes from a fresh arena of
the default chunk size is served at 65544 from a chunk of 20032 bytes; `reset`
keeps that chunk but counts only 16376 bytes as remaining, so the same request
grows a new chunk and returns another address. -/
theorem C4_counterexample :
    TraceOk (Session.fresh defaultChunkSize (fun _ => 0) [])
      [Op.alloc 20000 0 65536, Op.reset, Op.alloc 20000 0 131072] ∧
    (alloc (World.fresh defaultChunkSize (fun _ => 0) []) 20000 0 65536).1 = 65544 ∧
    ((Session.fresh defaultChunkSize (fun _ => 0) []).run
      [Op.alloc 20000 0 65536, Op.reset]).map
        (fun s => (alloc s.world 20000 0 131072).1) = some 131080 := by
  refine ⟨by decide, by decide, by decide⟩

/-- C5 (as amended): when what remains in the current chunk is less than
`size + alignment` (so on a fresh arena, and whenever the current chunk is not
an oversized one), a request of `size > N` with `size + alignment + 32` within
`int` grows exactly one chunk, of `max(N, size + alignment + 32)` =
`size + alignment + 32` bytes; the new chunk's first word holds the previously
current chunk and the new chunk becomes current; the returned region lies in
the new chunk after its link word; no other word is written, nothing is
released, and the region meets no block that was allocated before the call. -/
theorem C5_oversize_request_grows_chunk (w : World) (size alignment : Int) (base : Nat)
    (hN : (w.arena.mChunkSize : Int) < size) (ha : AlignOk alignment)
    (hint : size + alignment + 32 < 2147483648)
    (hleft : (w.arena.mChunkLeft : Int) < size + alignment)
    (hm : MallocOk w (max w.arena.mChunkSize (size + alignment + 32).toNat) base) :
    (alloc w size alignment base).2.live =
        (base, max w.arena.mChunkSize (size + alignment + 32).toNat) :: w.live ∧
      max w.arena.mChunkSize (size + alignment + 32).toNat = (size + alignment + 32).toNat ∧
      (alloc w size alignment base).2.word base = w.arena.mCurChunk ∧
      (alloc w size alignment base).2.arena.mCurChunk = base ∧
      base + 8 ≤ (alloc w size alignment base).1 ∧
      (alloc w size alignment base).1 + size.toNat ≤ base + (size + alignment + 32).toNat ∧
      (∀ x, x ≠ base → (alloc w size alignment base).2.word x = w.word x) ∧
      (alloc w size alignment base).2.freed = w.freed ∧
      ∀ b ∈ w.live, RangesDisjoint (alloc w size alignment base).1 size.toNat b.1 b.2 := by
  have har := ha.range
  have hs0 : 0 ≤ size := by omega
  have hsm := toU64_toI32_small (size + alignment) (by omega) (by omega)
  have hgrow : w.arena.mChunkLeft < toU64 (toI32 (size + alignment)) := by omega
  have hcb := chunkBytes_small w.arena (size + alignment) (by omega) hint
  have hmax : max w.arena.mChunkSize (size + alignment + 32).toNat =
      (size + alignment + 32).toNat := by omega
  rw [alloc_grow w size alignment base hgrow, hcb, hmax]
  rw [hmax] at hm
  obtain ⟨hb0, hb1, hb2⟩ := hm
  have e0 : toU64 ((base : Int) + 8) = base + 8 := by unfold toU64; omega
  rw [e0]
  have hbd := alignPtr_bounds (base + 8) alignment ha (by push_cast; omega)
  generalize alignPtr (base + 8) alignment = p at hbd ⊢
  obtain ⟨hp1, hp2⟩ := hbd
  push_cast at hp2
  refine ⟨rfl, rfl, if_pos rfl, rfl, hp1, by omega, ?_, rfl, fun b hb => ?_⟩
  · intro x hx
    exact if_neg hx
  · have := hb2 b hb
    unfold RangesDisjoint at this ⊢
    omega

/-- C5 (as amended) at a request of 20000 bytes made after one of 100 bytes. -/
theorem C5_oversize_request_grows_chunk_witness :
    MallocOk (alloc (World.fresh 16384 (fun _ => 0) []) 100 0 65536).2
      (max (alloc (World.fresh 16384 (fun _ => 0) []) 100 0 65536).2.arena.mChunkSize
        ((20000 : Int) + 16 + 32).toNat) 262144 ∧
    (alloc (alloc (World.fresh 16384 (fun _ => 0) []) 100 0 65536).2 20000 16 262144).2.live =
      [(262144, 20048), (65536, 16384)] ∧
    (alloc (alloc (World.fresh 16384 (fun _ => 0) []) 100 0 65536).2 20000 16 262144).2.word
      262144 = 65536 :=
  have h := C5_oversize_request_grows_chunk
    (alloc (World.fresh 16384 (fun _ => 0) []) 100 0 65536).2 20000 16 262144
    (by decide) (by decide) (by decide) (by decide) (by decide)
  ⟨by decide, h.1, h.2.2.1⟩

/-- C5 as stated fails: after `alloc(8, 65536)` has grown a chunk of 65576
bytes at 131056, of which 65552 remain, a request of 20000 bytes (more than
the chunk size 16384) grows nothing: it is served at 131080 from the chunk
that was already current, and the platform's block list is unchanged. -/
theorem C5_counterexample :
    TraceOk (Session.fresh defaultChunkSize (fun _ => 0) [])
      [Op.alloc 8 65536 131056, Op.alloc 20000 0 262144] ∧
    ((Session.fresh defaultChunkSize (fun _ => 0) []).run [Op.alloc 8 65536 131056]).map
      (fun s => (s.world.arena.mChunkSize, s.world.arena.mChunkLeft, s.world.arena.mCurChunk,
        s.world.live)) = some (16384, 65552, 131056, [(131056, 65576)]) ∧
    ((Session.fresh defaultChunkSize (fun _ => 0) []).run [Op.alloc 8 65536 131056]).map
      (fun s => ((alloc s.world 20000 0 262144).1,
        (alloc s.world 20000 0 262144).2.arena.mCurChunk,
        (alloc s.world 20000 0 262144).2.live)) =
      some (131080, 131056, [(131056, 65576)]) := by
  refine ⟨by decide, by decide, by decide⟩

/-- C6: `reset()` on an arena whose chunk list, most recent first, is
`init ++ [l]` (so `k = init.length + 1` chunks) returns once its loop is given
`k` tests; it releases exactly the chunks of `init`, in order and each once
(`init` has no repetition and does not contain `l`), keeps the oldest chunk
`l` as current, sets the cursor to `l + 8` and the remaining count to the
configured chunk size minus 8 (both in 64-bit arithmetic), and leaves the
configured size and the memory words alone. On an arena without a chunk
`reset()` returns the state unchanged, nothing being released. -/
theorem C6_reset_releases_all_but_oldest (w : World) (fuel : Nat) :
    (∀ (init : List Nat) (l : Nat),
      Links w.word w.arena.mCurChunk (init ++ [l]) → init.length < fuel →
      ∃ w1, reset fuel w = some w1 ∧
        w1.freed = w.freed ++ init ∧ init.Nodup ∧ l ∉ init ∧
        (∀ b, b ∈ w1.live ↔ b ∈ w.live ∧ b.1 ∉ init) ∧
        w1.arena.mCurChunk = l ∧
        w1.arena.mCurPtr = toU64 ((l : Int) + 8) ∧
        (l + 8 < 18446744073709551616 → w1.arena.mCurPtr = l + 8) ∧
        w1.arena.mChunkLeft = toU64 ((w.arena.mChunkSize : Int) - 8) ∧
        (8 ≤ w.arena.mChunkSize → w.arena.mChunkSize < 18446744073709551616 →
          w1.arena.mChunkLeft = w.arena.mChunkSize - 8) ∧
        w1.arena.mChunkSize = w.arena.mChunkSize ∧ w1.word = w.word) ∧
    (w.arena.mCurChunk = 0 → reset fuel w = some w) := by
  refine ⟨?_, reset_of_null w fuel⟩
  intro init l hl hf
  have hnd : (init ++ [l]).Nodup := Links.nodup hl
  obtain ⟨hnd1, -, hnd3⟩ := List.nodup_append.1 hnd
  refine ⟨_, reset_of_links w init l fuel hl hf, ?_, hnd1, ?_, ?_, rfl, rfl, ?_, rfl, ?_, rfl, ?_⟩
  · exact releaseAll_freed init w
  · intro hmem
    exact hnd3 hmem (List.mem_singleton_self l)
  · intro b
    exact mem_releaseAll_live init w b
  · intro h
    show toU64 ((l : Int) + 8) = l + 8
    unfold toU64; omega
  · intro h1 h2
    show toU64 ((w.arena.mChunkSize : Int) - 8) = w.arena.mChunkSize - 8
    unfold toU64; omega
  · exact releaseAll_word init w

/-- C6 at an arena holding two chunks, the newer at 65536. -/
theorem C6_reset_releases_all_but_oldest_witness :
    Links (alloc (alloc (World.fresh 16384 (fun _ => 0) []) 16000 0 131072).2 384 0 65536).2.word
      (alloc (alloc (World.fresh 16384 (fun _ => 0) []) 16000 0 131072).2 384 0 65536).2.arena.mCurChunk
      ([65536] ++ [131072]) ∧
    ∃ w1, reset 2 (alloc (alloc (World.fresh 16384 (fun _ => 0) []) 16000 0 131072).2
        384 0 65536).2 = some w1 ∧
      w1.freed = [65536] ∧ w1.arena.mCurChunk = 131072 ∧ w1.arena.mCurPtr = 131080 ∧
      w1.arena.mChunkLeft = 16376 :=
  have h := (C6_reset_releases_all_but_oldest
    (alloc (alloc (World.fresh 16384 (fun _ => 0) []) 16000 0 131072).2 384 0 65536).2 2).1
    [65536] 131072 (by decide) (by decide)
  ⟨by decide, h.elim (fun w1 hw => ⟨w1, hw.1, hw.2.1, hw.2.2.2.2.2.1,
    hw.2.2.2.2.2.2.2.1 (by decide), hw.2.2.2.2.2.2.2.2.2.1 (by decide) (by decide)⟩)⟩

/-- C7 (as amended): `unsafeutility_malloc(size, alignment, kind)` delegates to
the arena's `alloc((int)size, alignment)` when `kind` is `Temp`, and only then:
for every other kind, `TempJob` included, it returns what the platform's
`malloc((size_t)size)` returns and leaves the arena and the memory words
unchanged. -/
theorem C7_malloc_dispatch (w : World) (size alignment : Int) (kind : Allocator) (base : Nat) :
    unsafeutility_malloc w size alignment Allocator.Temp base =
        alloc w (toI32 size) alignment base ∧
      (-2147483648 ≤ size → size < 2147483648 →
        unsafeutility_malloc w size alignment Allocator.Temp base =
          alloc w size alignment base) ∧
      (kind ≠ Allocator.Temp →
        (unsafeutility_malloc w size alignment kind base).1 = base ∧
        (unsafeutility_malloc w size alignment kind base).2 = malloc w (toU64 size) base ∧
        (unsafeutility_malloc w size alignment kind base).2.arena = w.arena ∧
        (unsafeutility_malloc w size alignment kind base).2.word = w.word ∧
        (unsafeutility_malloc w size alignment kind base).2.live =
          (base, toU64 size) :: w.live) := by
  refine ⟨rfl, ?_, ?_⟩
  · intro h1 h2
    have : toI32 size = size := by unfold toI32; omega
    show alloc w (toI32 size) alignment base = alloc w size alignment base
    rw [this]
  · intro hk
    unfold unsafeutility_malloc
    rw [if_neg hk]
    exact ⟨rfl, rfl, rfl, rfl, rfl⟩

/-- C7 (as amended) at a request of kind `TempJob` and one of kind `Temp`. -/
theorem C7_malloc_dispatch_witness :
    Allocator.TempJob ≠ Allocator.Temp ∧
    (unsafeutility_malloc (World.fresh 16384 (fun _ => 0) []) 64 16 Allocator.TempJob 65536).1
      = 65536 ∧
    (unsafeutility_malloc (World.fresh 16384 (fun _ => 0) []) 64 16 Allocator.TempJob 65536).2.arena
      = (World.fresh 16384 (fun _ => 0) []).arena ∧
    unsafeutility_malloc (World.fresh 16384 (fun _ => 0) []) 64 16 Allocator.Temp 65536 =
      alloc (World.fresh 16384 (fun _ => 0) []) 64 16 65536 :=
  have h := C7_malloc_dispatch (World.fresh 16384 (fun _ => 0) []) 64 16 Allocator.TempJob 65536
  ⟨by decide, (h.2.2 (by decide)).1, (h.2.2 (by decide)).2.2.1,
    h.2.1 (by decide) (by decide)⟩

/-- C7 as stated fails for `TempJob`: on a fresh process the call with kind
`TempJob` returns the platform's block at 65536 and leaves the arena as it was
(no chunk), where the arena's `alloc` returns 65552 from a new chunk. -/
theorem C7_counterexample :
    (unsafeutility_malloc (World.fresh defaultChunkSize (fun _ => 0) []) 16 16
      Allocator.TempJob 65536).1 = 65536 ∧
    (unsafeutility_malloc (World.fresh defaultChunkSize (fun _ => 0) []) 16 16
      Allocator.TempJob 65536).2.arena = BumpAllocator.new defaultChunkSize ∧
    (alloc (World.fresh defaultChunkSize (fun _ => 0) []) 16 16 65536).1 = 65552 ∧
    (alloc (World.fresh defaultChunkSize (fun _ => 0) []) 16 16 65536).2.arena.mCurChunk = 65536 ∧
    (unsafeutility_malloc (World.fresh defaultChunkSize (fun _ => 0) []) 16 16
      Allocator.TempJob 65536).1 ≠
      (alloc (World.fresh defaultChunkSize (fun _ => 0) []) 16 16 65536).1 := by
  refine ⟨by decide, by decide, by decide, by decide, by decide⟩

/-- C8: `unsafeutility_free(ptr, kind)` changes nothing when `ptr` is null,
whatever the kind, and nothing when the kind is `Temp`, whatever the pointer:
the whole state is the same afterwards, so nothing is released to the platform
and the arena (current chunk, cursor, remaining count) is untouched. -/
theorem C8_free_null_or_temp_is_noop (w : World) (ptr : Nat) (kind : Allocator) :
    unsafeutility_free w 0 kind = w ∧ unsafeutility_free w ptr Allocator.Temp = w := by
  constructor
  · rfl
  · unfold unsafeutility_free
    by_cases h : ptr = 0
    · rw [if_pos h]
    · rw [if_neg h, if_pos rfl]

/-- C9 (as amended): `unsafeutility_free(ptr, kind)` with a non-null `ptr`
releases the pointer to the platform allocator for every kind other than
`Temp`, `TempJob` included, and leaves the arena alone; only kind `Temp` keeps
the pointer from being released. -/
theorem C9_free_dispatch (w : World) (ptr : Nat) (kind : Allocator) (hp : ptr ≠ 0) :
    (kind ≠ Allocator.Temp →
      unsafeutility_free w ptr kind = free w ptr ∧
      (unsafeutility_free w ptr kind).freed = w.freed ++ [ptr] ∧
      (unsafeutility_free w ptr kind).arena = w.arena) ∧
    (unsafeutility_free w ptr Allocator.TempJob).freed = w.freed ++ [ptr] ∧
    (unsafeutility_free w ptr Allocator.Temp).freed = w.freed := by
  unfold unsafeutility_free
  refine ⟨?_, ?_, ?_⟩
  · intro hk
    rw [if_neg hp, if_neg hk]
    exact ⟨rfl, rfl, rfl⟩
  · rw [if_neg hp, if_neg (by decide)]
    rfl
  · rw [if_neg hp, if_pos rfl]

/-- C9 (as amended) at the pointer 4096 and the kinds `Persistent` and `TempJob`. -/
theorem C9_free_dispatch_witness :
    (4096 : Nat) ≠ 0 ∧
    (unsafeutility_free (World.fresh 16384 (fun _ => 0) [(4096, 32)]) 4096
      Allocator.TempJob).freed = [4096] ∧
    (unsafeutility_free (World.fresh 16384 (fun _ => 0) [(4096, 32)]) 4096
      Allocator.Persistent).freed = [4096] :=
  have h := C9_free_dispatch (World.fresh 16384 (fun _ => 0) [(4096, 32)]) 4096
    Allocator.Persistent (by decide)
  ⟨by decide, h.2.1, (h.1 (by decide)).2.1⟩

/-- C9 as stated fails: freeing the non-null pointer 4096 with kind `TempJob`
hands it to the platform's `free` and the block leaves the live list, where
kind `Temp` releases nothing. -/
theorem C9_counterexample :
    (unsafeutility_free (World.fresh defaultChunkSize (fun _ => 0) [(4096, 32)]) 4096
      Allocator.TempJob).freed = [4096] ∧
    (unsafeutility_free (World.fresh defaultChunkSize (fun _ => 0) [(4096, 32)]) 4096
      Allocator.TempJob).live = [] ∧
    (unsafeutility_free (World.fresh defaultChunkSize (fun _ => 0) [(4096, 32)]) 4096
      Allocator.Temp).freed = [] := by
  refine ⟨by decide, by decide, by decide⟩

/-- C10: for `size >= 0` and `alignment` 0 or a power of two (both `int`):
if the remaining count is less than `size + alignment`, `alloc` grows a new
chunk first (the platform's block list gains the chunk, its link word holds the
old current chunk, it becomes current) and computes the result from the new
chunk's start + 8, inside the new chunk; if the remaining count is at least
`size + alignment`, the sum being within `int` as the code computes it, nothing
is grown: the current chunk, the block list, the memory words and the release
log are unchanged and the result is computed from the old cursor, inside what
remained of the current chunk. -/
theorem C10_growth_condition (w : World) (size alignment : Int) (base : Nat)
    (hs : 0 ≤ size) (hs31 : size < 2147483648) (ha : AlignOk alignment) :
    ((w.arena.mChunkLeft : Int) < size + alignment →
      (alloc w size alignment base).2.live =
        (base, chunkBytes w.arena (toI32 (size + alignment))) :: w.live ∧
      (alloc w size alignment base).2.arena.mCurChunk = base ∧
      (alloc w size alignment base).2.word base = w.arena.mCurChunk ∧
      (alloc w size alignment base).1 = alignPtr (toU64 ((base : Int) + 8)) alignment ∧
      (base + chunkBytes w.arena (toI32 (size + alignment)) < 18446744073709551616 →
        base + 8 ≤ (alloc w size alignment base).1 ∧
        (alloc w size alignment base).1 + size.toNat ≤
          base + chunkBytes w.arena (toI32 (size + alignment)))) ∧
    (size + alignment < 2147483648 → size + alignment ≤ (w.arena.mChunkLeft : Int) →
      (alloc w size alignment base).2.live = w.live ∧
      (alloc w size alignment base).2.word = w.word ∧
      (alloc w size alignment base).2.freed = w.freed ∧
      (alloc w size alignment base).2.arena.mCurChunk = w.arena.mCurChunk ∧
      (alloc w size alignment base).1 = alignPtr w.arena.mCurPtr alignment ∧
      (w.arena.mCurPtr + w.arena.mChunkLeft < 18446744073709551616 →
        w.arena.mCurPtr ≤ (alloc w size alignment base).1 ∧
        (alloc w size alignment base).1 + size.toNat ≤
          w.arena.mCurPtr + w.arena.mChunkLeft)) := by
  have har := ha.range
  constructor
  · intro hlt
    have hge := toU64_toI32_ge (size + alignment) (by omega) (by omega)
    have hgrow : w.arena.mChunkLeft < toU64 (toI32 (size + alignment)) := by omega
    have hsz2 := chunkBytes_ge_need w.arena (size + alignment) (by omega) (by omega)
    rw [alloc_grow w size alignment base hgrow]
    refine ⟨rfl, rfl, if_pos rfl, rfl, ?_⟩
    intro hsp
    have e0 : toU64 ((base : Int) + 8) = base + 8 := by unfold toU64; omega
    simp only [e0]
    have hbd := alignPtr_bounds (base + 8) alignment ha (by push_cast; omega)
    generalize alignPtr (base + 8) alignment = p at hbd ⊢
    obtain ⟨hp1, hp2⟩ := hbd
    push_cast at hp2
    exact ⟨hp1, by omega⟩
  · intro hint hge
    have hsm := toU64_toI32_small (size + alignment) (by omega) hint
    have hfit : ¬ w.arena.mChunkLeft < toU64 (toI32 (size + alignment)) := by omega
    rw [alloc_fit w size alignment base hfit]
    refine ⟨rfl, rfl, rfl, rfl, rfl, ?_⟩
    intro hsp
    have hbd := alignPtr_bounds w.arena.mCurPtr alignment ha (by omega)
    simp only
    generalize alignPtr w.arena.mCurPtr alignment = p at hbd ⊢
    obtain ⟨hp1, hp2⟩ := hbd
    exact ⟨hp1, by omega⟩

/-- C10 at a request that grows the first chunk and one that fits in it. -/
theorem C10_growth_condition_witness :
    (0 : Int) ≤ 100 ∧ (100 : Int) < 2147483648 ∧ AlignOk 16 ∧
    (alloc (World.fresh 16384 (fun _ => 0) []) 100 16 65536).2.live = [(65536, 16384)] ∧
    (alloc (alloc (World.fresh 16384 (fun _ => 0) []) 100 16 65536).2 100 16 7).2.live =
      [(65536, 16384)] :=
  have h1 := C10_growth_condition (World.fresh 16384 (fun _ => 0) []) 100 16 65536
    (by decide) (by decide) (by decide)
  have h2 := C10_growth_condition (alloc (World.fresh 16384 (fun _ => 0) []) 100 16 65536).2
    100 16 7 (by decide) (by decide) (by decide)
  ⟨by decide, by decide, by decide, (h1.1 (by decide)).1,
    (h2.2 (by decide) (by decide)).1⟩

/-- C12 at a failing input, `count = 2^31` one-byte elements gathered with a
source stride of 2: `unsafeutility_memcpystride` does not return, whatever the
number of tests its loop is given, because the counter `int i` never equals
the 64-bit `count`. -/
theorem C12_memcpystride_loop_never_returns :
    ∀ fuel, unsafeutility_memcpystride fuel (fun _ => 0) 4294967296 1 8589934592 2 1
      2147483648 = none := by
  intro fuel
  unfold unsafeutility_memcpystride
  rw [if_neg (by decide)]
  exact memcpystrideLoop_diverges 1 2 1 2147483648 (Or.inl (by decide)) fuel 0 _ _ _
    (by decide) (by decide)

/-- C13: for every `elementSize >= 0` and every `int` `count`, with the
destination inside the address space and the pattern not overlapping it,
`unsafeutility_memcpyreplicate(dst, src, elementSize, count)` returns once its
loop is given more tests than `count`; afterwards every slot `i < count` of
the destination holds the pattern (`dst[i*elementSize + j] == src[j]`), every
byte outside these slots is unchanged, in particular every byte at or beyond
`dst + count*elementSize` and every byte before `dst`, and a `count <= 0`
leaves the memory as it was. -/
theorem C13_memcpyreplicate_writes_pattern (m : Nat → Nat) (dst src : Nat)
    (elementSize count : Int) (fuel : Nat)
    (hes : 0 ≤ elementSize) (hes31 : elementSize < 2147483648)
    (hc31 : count < 2147483648)
    (hd : dst + count.toNat * elementSize.toNat < 18446744073709551616)
    (hdisj : dst + count.toNat * elementSize.toNat ≤ src ∨ src + elementSize.toNat ≤ dst)
    (hf : count.toNat < fuel) :
    ∃ m1, unsafeutility_memcpyreplicate fuel m dst src elementSize count = some m1 ∧
      (∀ i j, i < count.toNat → j < elementSize.toNat →
        m1 (dst + i * elementSize.toNat + j) = m (src + j)) ∧
      (∀ a, (∀ i j, i < count.toNat → j < elementSize.toNat →
        a ≠ dst + i * elementSize.toNat + j) → m1 a = m a) ∧
      (∀ a, dst + count.toNat * elementSize.toNat ≤ a → m1 a = m a) ∧
      (∀ a, a < dst → m1 a = m a) ∧
      (count ≤ 0 → m1 = m) := by
  obtain ⟨e, rfl⟩ := Int.eq_ofNat_of_zero_le hes
  simp only [Int.toNat_natCast] at hd hdisj ⊢
  by_cases hcneg : count ≤ 0
  · have hc0 : count.toNat = 0 := by omega
    obtain ⟨f, rfl⟩ : ∃ f, fuel = f + 1 := ⟨fuel - 1, by omega⟩
    have hnot : ¬ ((0 : Int) < count) := by omega
    refine ⟨m, ?_, ?_, fun _ _ => rfl, fun _ _ => rfl, fun _ _ => rfl, fun _ => rfl⟩
    · unfold unsafeutility_memcpyreplicate memcpyreplicateLoop
      rw [if_neg hnot]
    · intro i j hi
      omega
  · obtain ⟨c, rfl⟩ := Int.eq_ofNat_of_zero_le (by omega : 0 ≤ count)
    simp only [Int.toNat_natCast] at hd hdisj hf ⊢
    have hrun := memcpyreplicateLoop_run m dst src e c (by omega) (by omega) hd c 0 fuel
      (by omega) hf
    simp only [Nat.zero_mul, Nat.add_zero, Nat.cast_zero] at hrun
    obtain ⟨h1, h2⟩ := replElems_spec m dst src e c hdisj c (le_refl _)
    refine ⟨_, hrun, h1, h2, ?_, ?_, fun h => absurd h hcneg⟩
    · intro a ha
      apply h2
      intro i j hi hj heq
      have h3 : (i + 1) * e ≤ c * e := Nat.mul_le_mul_right _ (by omega)
      have h4 : (i + 1) * e = i * e + e := by ring
      omega
    · intro a ha
      apply h2
      intro i j hi hj heq
      omega

/-- C13 at the 4-byte pattern written three times. -/
theorem C13_memcpyreplicate_writes_pattern_witness :
    (0 : Int) ≤ 4 ∧ (3 : Int) < 2147483648 ∧
    ∃ m1, unsafeutility_memcpyreplicate 4 (fun a => a % 251) 4096 8192 4 3 = some m1 ∧
      (∀ i j, i < (3 : Int).toNat → j < (4 : Int).toNat →
        m1 (4096 + i * (4 : Int).toNat + j) = (fun a => a % 251) (8192 + j)) ∧
      (∀ a, 4096 + (3 : Int).toNat * (4 : Int).toNat ≤ a → m1 a = (fun a => a % 251) a) :=
  have h := C13_memcpyreplicate_writes_pattern (fun a => a % 251) 4096 8192 4 3 4
    (by decide) (by decide) (by decide) (by decide) (by decide) (by decide)
  ⟨by decide, by decide, h.elim (fun m1 hm => ⟨m1, hm.1, hm.2.1, hm.2.2.2.1⟩)⟩

/-- C14: with the guard heap enabled, for every `size >= 0` and every block the
platform returns for the request (inside the address space), the guarded
`unsafeutility_malloc` followed at once by the guarded `unsafeutility_free` of
the returned pointer (kind other than `Temp`) calls `guardfail` not once: the
pointer is a multiple of 64, header and footer hold the same `size` and the
same base, which are the requested size and the platform's unaligned address,
and the four sentinel checks pass; the free comes down to releasing exactly
that unaligned address to the platform. -/
theorem C14_guard_round_trip (g : GuardHeap.GuardWorld) (size alignment : Int)
    (kind : Allocator) (base : Nat)
    (hs : 0 ≤ size) (hs63 : size < 9223372036854775808) (hk : kind ≠ Allocator.Temp)
    (hsp : base + GuardHeap.guardedBytes size < 18446744073709551616) :
    GuardHeap.unsafeutility_free (GuardHeap.unsafeutility_malloc g size alignment kind base).2
        (GuardHeap.unsafeutility_malloc g size alignment kind base).1 kind =
      GuardHeap.free (GuardHeap.unsafeutility_malloc g size alignment kind base).2 base ∧
    (GuardHeap.unsafeutility_free (GuardHeap.unsafeutility_malloc g size alignment kind base).2
      (GuardHeap.unsafeutility_malloc g size alignment kind base).1 kind).faults = g.faults ∧
    (GuardHeap.unsafeutility_free (GuardHeap.unsafeutility_malloc g size alignment kind base).2
      (GuardHeap.unsafeutility_malloc g size alignment kind base).1 kind).freed =
        g.freed ++ [base] ∧
    (GuardHeap.unsafeutility_malloc g size alignment kind base).1 % 64 = 0 ∧
    GuardHeap.load64 (GuardHeap.unsafeutility_malloc g size alignment kind base).2.byte
      ((GuardHeap.unsafeutility_malloc g size alignment kind base).1 - 192 +
        GuardHeap.offSize) = size.toNat ∧
    GuardHeap.load64 (GuardHeap.unsafeutility_malloc g size alignment kind base).2.byte
      ((GuardHeap.unsafeutility_malloc g size alignment kind base).1 - 192 +
        GuardHeap.offBase) = base ∧
    GuardHeap.load64 (GuardHeap.unsafeutility_malloc g size alignment kind base).2.byte
      ((GuardHeap.unsafeutility_malloc g size alignment kind base).1 + size.toNat +
        GuardHeap.offSize) = size.toNat ∧
    GuardHeap.load64 (GuardHeap.unsafeutility_malloc g size alignment kind base).2.byte
      ((GuardHeap.unsafeutility_malloc g size alignment kind base).1 + size.toNat +
        GuardHeap.offBase) = base := by
  have hgb := GuardHeap.guardedBytes_eq size hs hs63
  have hev := GuardHeap.unsafeutility_malloc_eval g size alignment kind base hs hs63 hsp
  rw [hgb] at hsp
  obtain ⟨-, h1, h2, h3⟩ := GuardHeap.alignedHeader_spec base (by omega)
  have hn : toU64 size = size.toNat := by unfold toU64; omega
  obtain ⟨f1, f2, f3, f4, l1, l2, l3, l4⟩ :=
    GuardHeap.two_headers (memset g.byte base 188 (size.toNat + 448))
      (GuardHeap.alignedHeader base) size.toNat base size hn (by omega)
  rw [hev]
  simp only [GuardHeap.offSize, GuardHeap.offBase, Nat.add_sub_cancel]
  have hfree := GuardHeap.unsafeutility_free_eval
    { byte :=
        GuardHeap.writeHeader
          (GuardHeap.writeHeader (memset g.byte base 188 (size.toNat + 448))
            (GuardHeap.alignedHeader base) 241 242 243 base size)
          (GuardHeap.alignedHeader base + 192 + size.toNat) 161 162 163 base size
      live := (base, size.toNat + 448) :: g.live
      freed := g.freed
      faults := g.faults }
    (GuardHeap.alignedHeader base) size.toNat base kind hk h3 (by omega) l1 l3 l2 l4
  rw [hfree]
  rw [GuardHeap.guardcheck_ok _ _ 241 64 (fun j hj => f1 _ (by omega)),
    GuardHeap.guardcheck_ok _ _ 242 64 (fun j hj => f2 _ (by omega)),
    GuardHeap.guardcheck_ok _ _ 161 64 (fun j hj => f3 _ (by omega)),
    GuardHeap.guardcheck_ok _ _ 162 64 (fun j hj => f4 _ (by omega))]
  refine ⟨rfl, rfl, rfl, by omega, l1, l2, l3, l4⟩

/-- C14 at a request of 10 bytes answered at the unaligned address 4100. -/
theorem C14_guard_round_trip_witness :
    (0 : Int) ≤ 10 ∧ Allocator.Persistent ≠ Allocator.Temp ∧
    4100 + GuardHeap.guardedBytes 10 < 18446744073709551616 ∧
    (GuardHeap.unsafeutility_free
      (GuardHeap.unsafeutility_malloc
        { byte := fun _ => 0, live := [], freed := [], faults := 0 } 10 8
        Allocator.Persistent 4100).2
      (GuardHeap.unsafeutility_malloc
        { byte := fun _ => 0, live := [], freed := [], faults := 0 } 10 8
        Allocator.Persistent 4100).1 Allocator.Persistent).faults = 0 ∧
    (GuardHeap.unsafeutility_free
      (GuardHeap.unsafeutility_malloc
        { byte := fun _ => 0, live := [], freed := [], faults := 0 } 10 8
        Allocator.Persistent 4100).2
      (GuardHeap.unsafeutility_malloc
        { byte := fun _ => 0, live := [], freed := [], faults := 0 } 10 8
        Allocator.Persistent 4100).1 Allocator.Persistent).freed = [4100] :=
  have h := C14_guard_round_trip { byte := fun _ => 0, live := [], freed := [], faults := 0 }
    10 8 Allocator.Persistent 4100 (by decide) (by decide) (by decide) (by decide)
  ⟨by decide, by decide, by decide, h.2.1, h.2.2.1⟩

/-- C15 (as amended): with the guard heap enabled, after a guarded allocation (`size >= 0`,
platform block inside the address space), overwriting one byte of one of the
four sentinel regions (header front and back, footer front and back) with a
value other than the region's fill byte makes the guarded `unsafeutility_free`
(kind other than `Temp`) call `guardfail`: the fault count goes up by one. -/
theorem C15_corrupt_sentinel_faults (g : GuardHeap.GuardWorld) (size alignment : Int)
    (kind : Allocator) (base a v : Nat)
    (hs : 0 ≤ size) (hs63 : size < 9223372036854775808) (hk : kind ≠ Allocator.Temp)
    (hsp : base + GuardHeap.guardedBytes size < 18446744073709551616)
    (hreg :
      ((GuardHeap.unsafeutility_malloc g size alignment kind base).1 - 192 ≤ a ∧
        a < (GuardHeap.unsafeutility_malloc g size alignment kind base).1 - 128 ∧ v ≠ 241) ∨
      ((GuardHeap.unsafeutility_malloc g size alignment kind base).1 - 64 ≤ a ∧
        a < (GuardHeap.unsafeutility_malloc g size alignment kind base).1 ∧ v ≠ 242) ∨
      ((GuardHeap.unsafeutility_malloc g size alignment kind base).1 + size.toNat ≤ a ∧
        a < (GuardHeap.unsafeutility_malloc g size alignment kind base).1 + size.toNat + 64 ∧
        v ≠ 161) ∨
      ((GuardHeap.unsafeutility_malloc g size alignment kind base).1 + size.toNat + 128 ≤ a ∧
        a < (GuardHeap.unsafeutility_malloc g size alignment kind base).1 + size.toNat + 192 ∧
        v ≠ 162)) :
    (GuardHeap.unsafeutility_free
      { (GuardHeap.unsafeutility_malloc g size alignment kind base).2 with
        byte := fun x =>
          if x = a then v
          else (GuardHeap.unsafeutility_malloc g size alignment kind base).2.byte x }
      (GuardHeap.unsafeutility_malloc g size alignment kind base).1 kind).faults =
      g.faults + 1 := by
  have hgb := GuardHeap.guardedBytes_eq size hs hs63
  have hev := GuardHeap.unsafeutility_malloc_eval g size alignment kind base hs hs63 hsp
  rw [hgb] at hsp
  obtain ⟨-, h1, h2, h3⟩ := GuardHeap.alignedHeader_spec base (by omega)
  have hn : toU64 size = size.toNat := by unfold toU64; omega
  obtain ⟨f1, f2, f3, f4, l1, l2, l3, l4⟩ :=
    GuardHeap.two_headers (memset g.byte base 188 (size.toNat + 448))
      (GuardHeap.alignedHeader base) size.toNat base size hn (by omega)
  rw [hev] at hreg ⊢
  simp only [Nat.add_sub_cancel] at hreg ⊢
  generalize GuardHeap.alignedHeader base = r at *
  generalize size.toNat = n at *
  generalize GuardHeap.writeHeader
    (GuardHeap.writeHeader (memset g.byte base 188 (n + 448)) r 241 242 243 base size)
    (r + 192 + n) 161 162 163 base size = m2 at *
  -- the fields are not touched by the overwrite
  have hfld : ∀ p, (p = r + 64 ∨ p = r + 72 ∨ p = r + 192 + n + 64 ∨ p = r + 192 + n + 72) →
      GuardHeap.load64 (fun x => if x = a then v else m2 x) p = GuardHeap.load64 m2 p := by
    intro p hp
    apply GuardHeap.load64_congr
    intro i hi
    show (if p + i = a then v else m2 (p + i)) = m2 (p + i)
    rw [if_neg (by omega)]
  have hfree := GuardHeap.unsafeutility_free_eval
    { byte := fun x => if x = a then v else m2 x
      live := (base, n + 448) :: g.live
      freed := g.freed
      faults := g.faults }
    r n base kind hk h3 (by omega)
    ((hfld _ (by simp)).trans l1) ((hfld _ (by simp)).trans l3)
    ((hfld _ (by simp)).trans l2) ((hfld _ (by simp)).trans l4)
  rw [hfree]
  -- a region without the overwritten byte passes, the one with it fails
  have hok : ∀ (g1 : GuardHeap.GuardWorld) (p x : Nat),
      g1.byte = (fun y => if y = a then v else m2 y) → (a < p ∨ p + 64 ≤ a) →
      (∀ y, p ≤ y ∧ y < p + 64 → m2 y = x) → GuardHeap.guardcheck g1 p x 64 = g1 := by
    intro g1 p x hg ha hm
    apply GuardHeap.guardcheck_ok
    intro j hj
    rw [hg]
    show (if p + j = a then v else m2 (p + j)) = x
    rw [if_neg (by omega)]
    exact hm _ (by omega)
  have hbad : ∀ (g1 : GuardHeap.GuardWorld) (p x : Nat),
      g1.byte = (fun y => if y = a then v else m2 y) → (p ≤ a ∧ a < p + 64) → v ≠ x →
      GuardHeap.guardcheck g1 p x 64 = GuardHeap.guardfail g1 := by
    intro g1 p x hg ha hv
    apply GuardHeap.guardcheck_bad
    refine ⟨a - p, by omega, ?_⟩
    rw [hg]
    show (if p + (a - p) = a then v else m2 (p + (a - p))) ≠ x
    rw [if_pos (by omega)]
    exact hv
  rcases hreg with ⟨ha1, ha2, hv⟩ | ⟨ha1, ha2, hv⟩ | ⟨ha1, ha2, hv⟩ | ⟨ha1, ha2, hv⟩
  · rw [hbad _ r 241 rfl (by omega) hv,
      hok _ (r + 128) 242 rfl (by omega) f2,
      hok _ (r + 192 + n) 161 rfl (by omega) f3,
      hok _ (r + 192 + n + 128) 162 rfl (by omega) (fun y hy => f4 y (by omega))]
    rfl
  · rw [hok _ r 241 rfl (by omega) f1,
      hbad _ (r + 128) 242 rfl (by omega) hv,
      hok _ (r + 192 + n) 161 rfl (by omega) f3,
      hok _ (r + 192 + n + 128) 162 rfl (by omega) (fun y hy => f4 y (by omega))]
    rfl
  · rw [hok _ r 241 rfl (by omega) f1,
      hok _ (r + 128) 242 rfl (by omega) f2,
      hbad _ (r + 192 + n) 161 rfl (by omega) hv,
      hok _ (r + 192 + n + 128) 162 rfl (by omega) (fun y hy => f4 y (by omega))]
    rfl
  · rw [hok _ r 241 rfl (by omega) f1,
      hok _ (r + 128) 242 rfl (by omega) f2,
      hok _ (r + 192 + n) 161 rfl (by omega) f3,
      hbad _ (r + 192 + n + 128) 162 rfl (by omega) hv]
    rfl

/-- C15 at a request of 10 bytes answered at 4100, with the fourth byte of the
footer's front region overwritten by 7. -/
theorem C15_corrupt_sentinel_faults_witness :
    (0 : Int) ≤ 10 ∧ Allocator.Persistent ≠ Allocator.Temp ∧
    4100 + GuardHeap.guardedBytes 10 < 18446744073709551616 ∧
    (GuardHeap.unsafeutility_malloc
      { byte := fun _ => 0, live := [], freed := [], faults := 0 } 10 8
      Allocator.Persistent 4100).1 + (10 : Int).toNat ≤ 4365 ∧
    (GuardHeap.unsafeutility_free
      { (GuardHeap.unsafeutility_malloc
          { byte := fun _ => 0, live := [], freed := [], faults := 0 } 10 8
          Allocator.Persistent 4100).2 with
        byte := fun x =>
          if x = 4365 then 7
          else (GuardHeap.unsafeutility_malloc
            { byte := fun _ => 0, live := [], freed := [], faults := 0 } 10 8
            Allocator.Persistent 4100).2.byte x }
      (GuardHeap.unsafeutility_malloc
        { byte := fun _ => 0, live := [], freed := [], faults := 0 } 10 8
        Allocator.Persistent 4100).1 Allocator.Persistent).faults = 0 + 1 :=
  ⟨by decide, by decide, by decide, by decide,
    C15_corrupt_sentinel_faults { byte := fun _ => 0, live := [], freed := [], faults := 0 }
      10 8 Allocator.Persistent 4100 4365 7 (by decide) (by decide) (by decide) (by decide)
      (Or.inr (Or.inr (Or.inl (by decide))))⟩

/-- C15 as stated fails for kind `Temp`: a guarded block of 10 bytes whose
footer has a sentinel byte overwritten with 7 is freed with kind `Temp`
without any call of `guardfail` and without being released, because
`unsafeutility_free` returns before the checks for that kind. -/
theorem C15_counterexample :
    (GuardHeap.unsafeutility_malloc
      { byte := fun _ => 0, live := [], freed := [], faults := 0 } 10 8
      Allocator.Temp 4100).1 = 4352 ∧
    (GuardHeap.unsafeutility_malloc
      { byte := fun _ => 0, live := [], freed := [], faults := 0 } 10 8
      Allocator.Temp 4100).2.byte 4365 = 161 ∧
    (GuardHeap.unsafeutility_free
      { (GuardHeap.unsafeutility_malloc
          { byte := fun _ => 0, live := [], freed := [], faults := 0 } 10 8
          Allocator.Temp 4100).2 with
        byte := fun x =>
          if x = 4365 then 7
          else (GuardHeap.unsafeutility_malloc
            { byte := fun _ => 0, live := [], freed := [], faults := 0 } 10 8
            Allocator.Temp 4100).2.byte x }
      4352 Allocator.Temp).faults = 0 ∧
    (GuardHeap.unsafeutility_free
      { (GuardHeap.unsafeutility_malloc
          { byte := fun _ => 0, live := [], freed := [], faults := 0 } 10 8
          Allocator.Temp 4100).2 with
        byte := fun x =>
          if x = 4365 then 7
          else (GuardHeap.unsafeutility_malloc
            { byte := fun _ => 0, live := [], freed := [], faults := 0 } 10 8
            Allocator.Temp 4100).2.byte x }
      4352 Allocator.Temp).freed = [] := by
  refine ⟨by decide, by decide, by decide, by decide⟩

/-- C16 (as amended): in every state reached from a fresh arena (configured
chunk size at least 8) by admissible `alloc` (`size >= 0`) and `reset` calls
in which a current chunk exists, the remaining count never exceeds
(chunk start + allocated size) - cursor; it is equal to it as long as no
`reset` has been called, and otherwise it is either equal to it or equal to
(chunk start + configured chunk size) - cursor, the configured size being at
most the size the chunk was allocated with. -/
theorem C16_remaining_consistent_with_cursor (chunkSize : Int) (word : Nat → Nat)
    (live : List (Nat × Nat)) (ops : List Op)
    (h8 : 8 ≤ chunkSize) (h31 : chunkSize < 2147483648)
    (htr : TraceOk (Session.fresh chunkSize word live) ops) :
    ∃ s, (Session.fresh chunkSize word live).run ops = some s ∧
      (s.world.arena.mCurChunk ≠ 0 →
        ∃ sz, (s.world.arena.mCurChunk, sz) ∈ s.world.live ∧
          s.world.arena.mCurPtr ≤ s.world.arena.mCurChunk + sz ∧
          s.world.arena.mChunkLeft ≤ s.world.arena.mCurChunk + sz - s.world.arena.mCurPtr ∧
          (s.world.arena.mChunkLeft = s.world.arena.mCurChunk + sz - s.world.arena.mCurPtr ∨
            (Op.reset ∈ ops ∧
              s.world.arena.mChunkLeft =
                s.world.arena.mCurChunk + s.world.arena.mChunkSize - s.world.arena.mCurPtr ∧
              s.world.arena.mChunkSize ≤ sz)) ∧
          (Op.reset ∉ ops →
            s.world.arena.mChunkLeft =
              s.world.arena.mCurChunk + sz - s.world.arena.mCurPtr)) := by
  have hfresh := fresh_inv chunkSize word live h8 h31
  obtain ⟨s, cs, hrun, hinv, hex⟩ :=
    run_exact ops (Session.fresh chunkSize word live) [] False hfresh trivial htr
  refine ⟨s, hrun, ?_⟩
  intro hne
  cases cs with
  | nil => exact absurd hinv.links hne
  | cons c rest =>
    have hl : s.world.arena.mCurChunk = c.1 := hinv.links.1
    have hcur := hinv.cursor
    simp only at hcur
    have hb := (hinv.block c (List.mem_cons_self _ _)).1
    refine ⟨c.2, by rw [hl]; exact hb, by omega, by omega, ?_, ?_⟩
    · rcases hex with h | ⟨hp, h1, h2⟩
      · left; omega
      · right
        rcases hp with hp | hp
        · exact hp.elim
        · exact ⟨hp, by omega, h2⟩
    · intro hno
      rcases hex with h | ⟨hp, h1, h2⟩
      · omega
      · rcases hp with hp | hp
        · exact hp.elim
        · exact absurd hp hno

/-- C16 (as amended) at three allocations, the third growing a second chunk. -/
theorem C16_remaining_consistent_with_cursor_witness :
    TraceOk (Session.fresh 16384 (fun _ => 0) [])
      [Op.alloc 100 16 65536, Op.alloc 0 0 0, Op.alloc 20000 8 262144] ∧
    ∃ s, (Session.fresh 16384 (fun _ => 0) []).run
        [Op.alloc 100 16 65536, Op.alloc 0 0 0, Op.alloc 20000 8 262144] = some s ∧
      (s.world.arena.mCurChunk ≠ 0 →
        ∃ sz, (s.world.arena.mCurChunk, sz) ∈ s.world.live ∧
          s.world.arena.mChunkLeft = s.world.arena.mCurChunk + sz - s.world.arena.mCurPtr) :=
  ⟨by decide,
    (C16_remaining_consistent_with_cursor 16384 (fun _ => 0) []
      [Op.alloc 100 16 65536, Op.alloc 0 0 0, Op.alloc 20000 8 262144]
      (by decide) (by decide) (by decide)).elim
      (fun s hs => ⟨s, hs.1, fun hne =>
        (hs.2 hne).elim (fun sz h => ⟨sz, h.1, h.2.2.2.2 (by decide)⟩)⟩)⟩

/-- C16 as stated fails after a `reset` that retains an oversized chunk: the
first request of 20000 bytes gets a chunk of 20032 bytes at 65536; after
`reset` the cursor is 65544 and the remaining count 16376, while the chunk has
20024 bytes from the cursor to its end. -/
theorem C16_counterexample :
    TraceOk (Session.fresh defaultChunkSize (fun _ => 0) [])
      [Op.alloc 20000 0 65536, Op.reset] ∧
    ((Session.fresh defaultChunkSize (fun _ => 0) []).run
      [Op.alloc 20000 0 65536, Op.reset]).map
        (fun s => (s.world.arena.mCurChunk, s.world.arena.mCurPtr, s.world.arena.mChunkLeft,
          s.world.live)) = some (65536, 65544, 16376, [(65536, 20032)]) ∧
    (16376 : Nat) ≠ 65536 + 20032 - 65544 := by
  refine ⟨by decide, by decide, by decide⟩

/-- C17: the allocation step. Let `c` be the cursor after the growth, if any,
and let the bytes remaining from `c` lie inside the address space. Then
`alloc(size, alignment)` (`size >= 0`, `alignment` 0 or a power of two)
returns `c` itself when `alignment` is 0; when `alignment` is the power of two
`2^k` it returns the value of the mask expression `(c + (a-1)) & ~(a-1)`,
which is the least multiple of `2^k` at or after `c`, the padding being less
than `2^k`; afterwards the cursor is the returned address plus `size` and the
remaining count is smaller by exactly the padding plus `size`. -/
theorem C17_alloc_step_postcondition (w : World) (size alignment : Int) (base : Nat)
    (hs : 0 ≤ size) (hs31 : size < 2147483648) (ha : AlignOk alignment)
    (hN : w.arena.mChunkSize < 18446744073709551616)
    (hsp : (afterGrowth w size alignment base).arena.mCurPtr +
      (afterGrowth w size alignment base).arena.mChunkLeft < 18446744073709551616) :
    (alignment = 0 →
      (alloc w size alignment base).1 = (afterGrowth w size alignment base).arena.mCurPtr) ∧
    (∀ k : Nat, alignment = 2 ^ k →
      (alloc w size alignment base).1 =
        toU64 (((afterGrowth w size alignment base).arena.mCurPtr : Int) + (alignment - 1)) &&&
          notU64 (toU64 (alignment - 1)) ∧
      (alloc w size alignment base).1 % 2 ^ k = 0 ∧
      (afterGrowth w size alignment base).arena.mCurPtr ≤ (alloc w size alignment base).1 ∧
      (alloc w size alignment base).1 <
        (afterGrowth w size alignment base).arena.mCurPtr + 2 ^ k ∧
      ∀ m, (afterGrowth w size alignment base).arena.mCurPtr ≤ m → m % 2 ^ k = 0 →
        (alloc w size alignment base).1 ≤ m) ∧
    (alloc w size alignment base).2.arena.mCurPtr =
      (alloc w size alignment base).1 + size.toNat ∧
    (alloc w size alignment base).2.arena.mChunkLeft +
        (((alloc w size alignment base).1 -
          (afterGrowth w size alignment base).arena.mCurPtr) + size.toNat) =
      (afterGrowth w size alignment base).arena.mChunkLeft := by
  have har := ha.range
  have hroom := afterGrowth_room w size alignment base hs hs31 ha hN
  rw [alloc_eq_afterGrowth]
  simp only
  generalize (afterGrowth w size alignment base).arena.mCurPtr = c at *
  generalize (afterGrowth w size alignment base).arena.mChunkLeft = L at *
  have hbd := alignPtr_bounds c alignment ha (by omega)
  refine ⟨?_, ?_, ?_, ?_⟩
  · intro h0
    subst h0
    unfold alignPtr
    simp
  · intro k hk
    subst hk
    have hk31 := ha.exponent
    have hpos : 0 < 2 ^ k := Nat.pow_pos (by decide)
    have hc : ((2:Int) ^ k) = ((2 ^ k : Nat) : Int) := by push_cast; rfl
    have hle := alignPtr_pow_least c k (by omega) (by
      rw [hc] at hroom
      omega)
    refine ⟨?_, hle.1, hle.2.1, hle.2.2.1, hle.2.2.2⟩
    have hne : ((2:Int) ^ k) ≠ 0 := by positivity
    unfold alignPtr
    rw [if_pos hne]
  · unfold toU64
    omega
  · unfold toU64
    omega

/-- C17 at a request of 100 bytes aligned to 16 on a fresh arena. -/
theorem C17_alloc_step_postcondition_witness :
    AlignOk 16 ∧
    (afterGrowth (World.fresh 16384 (fun _ => 0) []) 100 16 65536).arena.mCurPtr +
      (afterGrowth (World.fresh 16384 (fun _ => 0) []) 100 16 65536).arena.mChunkLeft <
        18446744073709551616 ∧
    (alloc (World.fresh 16384 (fun _ => 0) []) 100 16 65536).1 % 2 ^ 4 = 0 ∧
    (alloc (World.fresh 16384 (fun _ => 0) []) 100 16 65536).2.arena.mCurPtr =
      (alloc (World.fresh 16384 (fun _ => 0) []) 100 16 65536).1 + (100 : Int).toNat :=
  have h := C17_alloc_step_postcondition (World.fresh 16384 (fun _ => 0) []) 100 16 65536
    (by decide) (by decide) (by decide) (by decide) (by decide)
  ⟨by decide, by decide, (h.2.1 4 (by decide)).2.1, h.2.2.1⟩

/-- C18: for an arena whose configured chunk size `N` is at least 8, after any
admissible sequence of calls ending in `reset()`: if a chunk is current, it
was allocated with at least `N` bytes, the cursor is at its start + 8, and the
remaining count `N - 8` that `reset` installed is at most the chunk's
allocated size - 8, so cursor + remaining is inside the chunk; and after any
admissible continuation, an `alloc` of a positive size returns a region that
ends at or before the end of the chunk it is served from, as allocated. -/
theorem C18_reset_remaining_within_retained_chunk (chunkSize : Int) (word : Nat → Nat)
    (live : List (Nat × Nat)) (ops : List Op)
    (h8 : 8 ≤ chunkSize) (h31 : chunkSize < 2147483648)
    (htr : TraceOk (Session.fresh chunkSize word live) (ops ++ [Op.reset])) :
    ∃ s, (Session.fresh chunkSize word live).run (ops ++ [Op.reset]) = some s ∧
      s.world.arena.mChunkSize = chunkSize.toNat ∧
      (s.world.arena.mCurChunk ≠ 0 →
        ∃ sz, (s.world.arena.mCurChunk, sz) ∈ s.world.live ∧
          s.world.arena.mChunkSize ≤ sz ∧
          s.world.arena.mCurPtr = s.world.arena.mCurChunk + 8 ∧
          s.world.arena.mChunkLeft = s.world.arena.mChunkSize - 8 ∧
          s.world.arena.mChunkLeft ≤ sz - 8 ∧
          s.world.arena.mCurPtr + s.world.arena.mChunkLeft ≤ s.world.arena.mCurChunk + sz) ∧
      ∀ (ops2 : List Op) (size alignment : Int) (base : Nat),
        TraceOk s (ops2 ++ [Op.alloc size alignment base]) → 0 < size →
        ∃ s2, s.run ops2 = some s2 ∧
          ∃ sz, ((alloc s2.world size alignment base).2.arena.mCurChunk, sz) ∈
              (alloc s2.world size alignment base).2.live ∧
            (alloc s2.world size alignment base).2.arena.mCurChunk + 8 ≤
              (alloc s2.world size alignment base).1 ∧
            (alloc s2.world size alignment base).1 + size.toNat ≤
              (alloc s2.world size alignment base).2.arena.mCurChunk + sz := by
  obtain ⟨htr1, -⟩ := traceOk_append ops _ _ htr
  have hfresh := fresh_inv chunkSize word live h8 h31
  obtain ⟨s1, cs1, hrun1, hinv1, -, hsz1, -⟩ :=
    run_inv ops (Session.fresh chunkSize word live) [] hfresh (fun r hr => by cases hr) htr1
  obtain ⟨s, hstep, hinv, hiss, -, hsz, hcl⟩ := reset_session_step hinv1
  have hN : s.world.arena.mChunkSize = chunkSize.toNat := by
    rw [hsz, hsz1]
    show toU64 chunkSize = chunkSize.toNat
    unfold toU64; omega
  refine ⟨s, run_snoc ops _ s1 s Op.reset hrun1 hstep, hN, ?_, ?_⟩
  · intro hne
    cases hgl : cs1.getLast? with
    | none =>
      rw [hgl] at hinv
      exact absurd hinv.links hne
    | some cl =>
      obtain ⟨h1, h2, h3⟩ := hcl cl hgl
      have hold := hinv1.oldest cl hgl
      rw [hgl] at hinv
      have hb := hinv.block cl (by simp)
      have hcfg := hinv1.config
      refine ⟨cl.2, by rw [h1]; exact hb.1, by rw [hsz]; exact hold, by rw [h2, h1],
        by rw [h3, hsz], by rw [h3]; omega, by rw [h2, h3, h1]; omega⟩
  · intro ops2 size alignment base htr2 hpos
    obtain ⟨h1, h2⟩ := traceOk_append ops2 s _ htr2
    obtain ⟨s2, cs2, hrun2, hinv2, hiss2, -, -⟩ := run_inv ops2 s _ hinv hiss h1
    obtain ⟨sz, hm, hlo, hhi, -, -, -⟩ := alloc_region hinv2 hiss2 (h2 s2 hrun2) hpos
    exact ⟨s2, hrun2, sz, hm, hlo, hhi⟩

/-- C18 at an arena whose first chunk is oversized, then reset, then asked for
16000 bytes. -/
theorem C18_reset_remaining_within_retained_chunk_witness :
    TraceOk (Session.fresh 16384 (fun _ => 0) [])
      ([Op.alloc 20000 0 65536, Op.alloc 300 8 262144] ++ [Op.reset]) ∧
    ∃ s, (Session.fresh 16384 (fun _ => 0) []).run
        ([Op.alloc 20000 0 65536, Op.alloc 300 8 262144] ++ [Op.reset]) = some s ∧
      s.world.arena.mChunkSize = (16384 : Int).toNat ∧
      (s.world.arena.mCurChunk ≠ 0 →
        ∃ sz, (s.world.arena.mCurChunk, sz) ∈ s.world.live ∧
          s.world.arena.mChunkSize ≤ sz ∧
          s.world.arena.mChunkLeft ≤ sz - 8) :=
  ⟨by decide,
    (C18_reset_remaining_within_retained_chunk 16384 (fun _ => 0) []
      [Op.alloc 20000 0 65536, Op.alloc 300 8 262144] (by decide) (by decide) (by decide)).elim
      (fun s hs => ⟨s, hs.1, hs.2.1, fun hne =>
        (hs.2.2.1 hne).elim (fun sz h => ⟨sz, h.1, h.2.1, h.2.2.2.2.1⟩)⟩)⟩

/-- C19: with the guard heap enabled, for every `size >= 0` and every address
`b` the platform returns for the request of `size + 2*192 + 64` bytes (a block
inside the address space): the header start `r` satisfies `b <= r <= b + 63`,
the returned user pointer is `r + 192` and a multiple of 64, the footer ends
at `r + 192 + size + 192 <= b + size + 2*192 + 64`; header, user region and
footer follow one another inside the platform's block without overlap. -/
theorem C19_guard_layout_inside_block (g : GuardHeap.GuardWorld) (size alignment : Int)
    (kind : Allocator) (b : Nat)
    (hs : 0 ≤ size) (hs63 : size < 9223372036854775808)
    (hsp : b + GuardHeap.guardedBytes size < 18446744073709551616) :
    GuardHeap.guardedBytes size = size.toNat + 2 * 192 + 64 ∧
    b ≤ GuardHeap.alignedHeader b ∧ GuardHeap.alignedHeader b ≤ b + 63 ∧
    (GuardHeap.unsafeutility_malloc g size alignment kind b).1 =
      GuardHeap.alignedHeader b + 192 ∧
    (GuardHeap.unsafeutility_malloc g size alignment kind b).1 % 64 = 0 ∧
    GuardHeap.alignedHeader b + 192 + size.toNat + 192 ≤ b + size.toNat + 2 * 192 + 64 ∧
    GuardHeap.alignedHeader b + 192 + size.toNat + 192 ≤ b + GuardHeap.guardedBytes size ∧
    RangesDisjoint (GuardHeap.alignedHeader b) 192 (GuardHeap.alignedHeader b + 192)
      size.toNat ∧
    RangesDisjoint (GuardHeap.alignedHeader b + 192) size.toNat
      (GuardHeap.alignedHeader b + 192 + size.toNat) 192 ∧
    RangesDisjoint (GuardHeap.alignedHeader b) 192
      (GuardHeap.alignedHeader b + 192 + size.toNat) 192 := by
  have hgb := GuardHeap.guardedBytes_eq size hs hs63
  have hev := GuardHeap.unsafeutility_malloc_eval g size alignment kind b hs hs63 hsp
  rw [hgb] at hsp
  obtain ⟨-, h1, h2, h3⟩ := GuardHeap.alignedHeader_spec b (by omega)
  rw [hev, hgb]
  unfold RangesDisjoint
  refine ⟨by omega, h1, h2, rfl, ?_, by omega, by omega, Or.inl (le_refl _),
    Or.inl (le_refl _), Or.inl (by omega)⟩
  show (GuardHeap.alignedHeader b + 192) % 64 = 0
  omega

/-- C19 at a request of 10 bytes answered at the unaligned address 4100. -/
theorem C19_guard_layout_inside_block_witness :
    (0 : Int) ≤ 10 ∧ 4100 + GuardHeap.guardedBytes 10 < 18446744073709551616 ∧
    (4100 ≤ GuardHeap.alignedHeader 4100 ∧ GuardHeap.alignedHeader 4100 ≤ 4100 + 63) ∧
    (GuardHeap.unsafeutility_malloc
      { byte := fun _ => 0, live := [], freed := [], faults := 0 } 10 8
      Allocator.Persistent 4100).1 % 64 = 0 :=
  have h := C19_guard_layout_inside_block
    { byte := fun _ => 0, live := [], freed := [], faults := 0 } 10 8 Allocator.Persistent 4100
    (by decide) (by decide) (by decide)
  ⟨by decide, by decide, ⟨h.2.1, h.2.2.1⟩, h.2.2.2.2.1⟩

end Allocators
